import Mathlib

/-!
Verification development for the source-map engine (`src/source/sourcemap.civet`)
and the virtual-file host (`src/lsp/source/lib/typescript-service.mts`) of the
Civet language-service core.

The TypeScript/Civet code is shallowly embedded:

* JavaScript strings are modelled as `List Char` (one entry per UTF-16 unit;
  all inputs in this development are within the BMP, where code points and
  UTF-16 units coincide).
* JavaScript bitwise operators work on 32-bit two's-complement integers.  They
  are modelled on `Int` with explicit wrapping (`toInt32`), arithmetic shift
  right as floor division, and masking as `emod`.
* Loops whose termination is not structural carry an explicit fuel argument;
  the fuel is always chosen at call sites to dominate the real iteration
  count, and exhaustion (which models non-termination of the JS loop) yields
  `none` / an explicit error.
* Thrown exceptions are modelled with `Except String`; `undefined` results
  with `Option`.
-/

/-! ## JavaScript 32-bit integer primitives -/

/-- `ToInt32` from the ECMAScript spec: wrap an integer into `[-2^31, 2^31)`. -/
def toInt32 (n : Int) : Int := (n + 2 ^ 31) % 2 ^ 32 - 2 ^ 31

/-- The unsigned 32-bit representative of `toInt32 x`, as a natural number. -/
def uint32 (x : Int) : Nat := ((toInt32 x) % 2 ^ 32).toNat

/-- JS `x << k` (int32 left shift; the shift count is taken mod 32). -/
def jsShl (x : Int) (k : Nat) : Int := toInt32 (toInt32 x * 2 ^ (k % 32))

/-- JS `x >> k` (int32 arithmetic right shift = floor division by `2^k`;
the shift count is taken mod 32). -/
def jsShr (x : Int) (k : Nat) : Int := Int.fdiv (toInt32 x) (2 ^ (k % 32))

/-- JS `x & (2^p - 1)`: two's-complement AND with a low-bit mask is a
non-negative remainder. -/
def jsAndMask (x : Int) (p : Nat) : Int := (toInt32 x) % 2 ^ p

/-- JS `x | y` on int32 values, via the unsigned representatives. -/
def jsOr (x y : Int) : Int := toInt32 (Int.ofNat (Nat.lor (uint32 x) (uint32 y)))

/-! ## VLQ codec (`sourcemap.civet`, lines 236-326)

```
VLQ_SHIFT            := 5
VLQ_CONTINUATION_BIT := 1 << VLQ_SHIFT             // 0010 0000
VLQ_VALUE_MASK       := VLQ_CONTINUATION_BIT - 1   // 0001 1111
```
-/

def VLQ_SHIFT : Nat := 5
def VLQ_CONTINUATION_BIT : Int := 32
def VLQ_VALUE_MASK : Int := 31

/-- `BASE64_CHARS := 'ABCDEFGHIJKLMNOPQRSTUVWXYZabcdefghijklmnopqrstuvwxyz0123456789+/'` -/
def BASE64_CHARS : List Char :=
  "ABCDEFGHIJKLMNOPQRSTUVWXYZabcdefghijklmnopqrstuvwxyz0123456789+/".toList

/-- The 128-entry VLQ lookup table (`vlqTable`): character code to 6-bit value,
with `0xFF` for invalid characters.  The source fills an array with `0xFF` and
then writes each base64 character's index at its character code; since the 64
characters are distinct, entry `c` is the index of `c` in the alphabet. -/
def vlqTable (c : Nat) : Nat :=
  match BASE64_CHARS.indexOf? (Char.ofNat c) with
  | some i => i
  | none => 0xFF

/-- One iteration chunk of `encodeVlq`'s `while` loop
(`sourcemap.civet` lines 250-254).  `fuel` bounds the number of iterations;
`none` models non-termination (the loop state `valueToEncode` is an int32,
and once it is negative the arithmetic shift `>> 5` keeps it negative
forever, so the JS loop never exits). -/
def encodeVlqLoop : Nat → Int → List Char → Option (List Char)
  | fuel, valueToEncode, answer =>
    -- `while valueToEncode or !answer`
    if valueToEncode ≠ 0 ∨ answer = [] then
      match fuel with
      | 0 => none
      | fuel + 1 =>
        let nextChunk := jsAndMask valueToEncode VLQ_SHIFT          -- valueToEncode & VLQ_VALUE_MASK
        let valueToEncode' := jsShr valueToEncode VLQ_SHIFT         -- valueToEncode >> VLQ_SHIFT
        let nextChunk' := if valueToEncode' ≠ 0 then jsOr nextChunk VLQ_CONTINUATION_BIT else nextChunk
        encodeVlqLoop fuel valueToEncode' (answer ++ [BASE64_CHARS.getD nextChunk'.toNat 'A'])
    else some answer

/-- `encodeVlq` (`sourcemap.civet` lines 240-256).  The result is `none`
when the loop does not terminate.  Fuel 64 dominates every terminating run:
a non-negative int32 loop state reaches 0 within 7 iterations, and a negative
state never terminates (it stays negative under `>> 5`). -/
def encodeVlq (value : Int) : Option (List Char) :=
  let signBit : Int := if value < 0 then 1 else 0
  let valueToEncode : Int := jsShl (Int.ofNat value.natAbs) 1 + signBit
  encodeVlqLoop 64 valueToEncode []

/-- The inner `while true` group loop of `decodeVLQ`
(`sourcemap.civet` lines 299-316).  Returns the accumulated `vlq` and the
remaining input after the group's terminating (continuation-bit-clear)
character.  Errors mirror `decodeError` calls. -/
def decodeGroup : List Char → Nat → Int → Except String (Int × List Char)
  | [], _, _ => .error "Unexpected early end of mapping data"
  | c :: rest, shift, vlq =>
    let code := c.toNat
    -- `if (c & 0x7F) != c`
    if 127 < code then .error "Invalid mapping character"
    else
      let index := vlqTable code
      if index = 0xFF then .error "Invalid mapping character"
      else
        -- `vlq |= (index & 31) << shift; shift += 5`
        let vlq' := jsOr vlq (jsShl (Int.ofNat (index &&& 31)) shift)
        -- `break if (index & 32) is 0`
        if index &&& 32 = 0 then .ok (vlq', rest)
        else decodeGroup rest (shift + 5) vlq'

/-- The outer scan of `decodeVLQ` (`sourcemap.civet` lines 293-324): decode
groups until the input is exhausted, recovering each signed value.  The fuel
argument is only a termination device: every group consumes at least one
character, so `fuel = cs.length` at the top level can never be exhausted. -/
def decodeVLQGo : Nat → List Char → List Int → Except String (List Int)
  | _, [], result => .ok result
  | 0, _ :: _, _ => .error "fuel exhausted (unreachable)"
  | fuel + 1, c :: rest, result =>
    match decodeGroup (c :: rest) 0 0 with
    | .error e => .error e
    | .ok (vlq, rest') =>
      -- `if vlq & 1 then v = -(vlq >> 1) else v = vlq >> 1`
      let v := if jsAndMask vlq 1 = 1 then -(jsShr vlq 1) else jsShr vlq 1
      decodeVLQGo fuel rest' (result ++ [v])

/-- `decodeVLQ` (`sourcemap.civet` lines 288-326). -/
def decodeVLQ (mapping : List Char) : Except String (List Int) :=
  decodeVLQGo mapping.length mapping []

instance {ε α : Type} [DecidableEq ε] [DecidableEq α] : DecidableEq (Except ε α)
  | .error a, .error b =>
    if h : a = b then isTrue (by rw [h]) else isFalse (by intro hc; cases hc; exact h rfl)
  | .error _, .ok _ => isFalse (by intro hc; cases hc)
  | .ok _, .error _ => isFalse (by intro hc; cases hc)
  | .ok a, .ok b =>
    if h : a = b then isTrue (by rw [h]) else isFalse (by intro hc; cases hc; exact h rfl)

/-! ## Source-map data model (`sourcemap.civet`, lines 1-28)

A resolved source-map entry is a list of integers of arity 1 (unmapped), 4
(mapped) or 5 (named); fields 2 and 3 of resolved entries are absolute source
line/column, the other fields are deltas. -/

abbrev ResolvedSourceMapEntry := List Int
abbrev SourceMapLine := List ResolvedSourceMapEntry
abbrev SourceMapLines := List SourceMapLine

/-! ## String splitting and joining

`String.prototype.split` with a separator character and `Array.prototype.join`.
JS `"".split(";") = [""]`, and separators at the ends produce empty parts. -/

/-- JS `str.split(sep)` for a one-character separator. -/
def splitOnChar (sep : Char) : List Char → List (List Char)
  | [] => [[]]
  | c :: rest =>
    if c = sep then [] :: splitOnChar sep rest
    else
      match splitOnChar sep rest with
      | [] => [[c]]          -- unreachable: splitOnChar never returns []
      | part :: parts => (c :: part) :: parts

/-- JS `parts.join(sep)` for a one-character separator. -/
def joinWithChar (sep : Char) : List (List Char) → List Char
  | [] => []
  | [part] => part
  | part :: parts => part ++ sep :: joinWithChar sep parts

/-! ## `parseWithLines` (`sourcemap.civet`, lines 181-206)

`parseWithLines` base64-decodes and `JSON.parse`s the map document, then
processes the `mappings` string.  The JSON envelope step is an external
library call (`Buffer`/`JSON.parse`); the mappings processing below starts
from the `mappings` string, mirroring
`json.mappings.split(";").map (line) => ...` with the `sourceLine` /
`sourceColumn` accumulators that persist across all lines of the map. -/

/-- Process one `,`-separated mappings entry: decode it and convert the
source-line/column deltas of arity-4/5 segments to absolute values.
Returns the resolved entry and the updated accumulators; arities other than
1, 4, 5 throw `Unknown source map entry ...`. -/
def parseEntry (sourceLine sourceColumn : Int) (entry : List Char) :
    Except String (ResolvedSourceMapEntry × Int × Int) :=
  match decodeVLQ entry with
  | .error e => .error e
  | .ok result =>
    if result.length = 1 then .ok (result, sourceLine, sourceColumn)
    else if result.length = 4 ∨ result.length = 5 then
      let sourceLine' := sourceLine + result.getD 2 0
      let sourceColumn' := sourceColumn + result.getD 3 0
      .ok ((result.set 2 sourceLine').set 3 sourceColumn', sourceLine', sourceColumn')
    else .error "Unknown source map entry"

/-- Process the entries of one `;`-separated mappings line in order,
threading the accumulators. -/
def parseLineEntries (sourceLine sourceColumn : Int) :
    List (List Char) → Except String (SourceMapLine × Int × Int)
  | [] => .ok ([], sourceLine, sourceColumn)
  | entry :: entries =>
    match parseEntry sourceLine sourceColumn entry with
    | .error e => .error e
    | .ok (res, sl, sc) =>
      match parseLineEntries sl sc entries with
      | .error e => .error e
      | .ok (line, sl', sc') => .ok (res :: line, sl', sc')

/-- Process the `;`-separated lines in order.  An empty line string yields an
empty line (`return []` for `line.length is 0`). -/
def parseMappingLines (sourceLine sourceColumn : Int) :
    List (List Char) → Except String (SourceMapLines × Int × Int)
  | [] => .ok ([], sourceLine, sourceColumn)
  | lineStr :: lineStrs =>
    let step : Except String (SourceMapLine × Int × Int) :=
      if lineStr.length = 0 then .ok ([], sourceLine, sourceColumn)
      else parseLineEntries sourceLine sourceColumn (splitOnChar ',' lineStr)
    match step with
    | .error e => .error e
    | .ok (line, sl, sc) =>
      match parseMappingLines sl sc lineStrs with
      | .error e => .error e
      | .ok (lines, sl', sc') => .ok (line :: lines, sl', sc')

/-- The mappings-processing core of `SourceMap.parseWithLines`
(`sourcemap.civet` lines 181-206): split on `;`, split each line on `,`,
decode each entry, resolving source positions to absolute values. -/
def parseMappings (mappings : List Char) : Except String SourceMapLines :=
  match parseMappingLines 0 0 (splitOnChar ';' mappings) with
  | .error e => .error e
  | .ok (lines, _, _) => .ok lines

/-! ## `renderMappings` (`sourcemap.civet`, lines 72-88)

Serialize resolved lines, re-deriving source line/column deltas from the
running `lastSourceLine` / `lastSourceColumn`.  Only entries of length
exactly 4 re-encode all four fields; every other entry (length 1 or 5)
emits `encodeVlq entry[0]` alone.  The result is `none` if any
`encodeVlq` call fails to terminate. -/

/-- Render one entry, returning its string and the updated running state. -/
def renderEntry (lastSourceLine lastSourceColumn : Int) (entry : ResolvedSourceMapEntry) :
    Option (List Char × Int × Int) :=
  if entry.length = 4 then
    let srcLine := entry.getD 2 0
    let srcCol := entry.getD 3 0
    let lineDelta := srcLine - lastSourceLine
    let colDelta := srcCol - lastSourceColumn
    match encodeVlq (entry.getD 0 0), encodeVlq (entry.getD 1 0),
          encodeVlq lineDelta, encodeVlq colDelta with
    | some a, some b, some c, some d => some (a ++ b ++ c ++ d, srcLine, srcCol)
    | _, _, _, _ => none
  else
    match encodeVlq (entry.getD 0 0) with
    | some a => some (a, lastSourceLine, lastSourceColumn)
    | none => none

/-- Render the entries of one line (joined with `,` by the caller). -/
def renderLineEntries (lastSourceLine lastSourceColumn : Int) :
    SourceMapLine → Option (List (List Char) × Int × Int)
  | [] => some ([], lastSourceLine, lastSourceColumn)
  | entry :: entries =>
    match renderEntry lastSourceLine lastSourceColumn entry with
    | none => none
    | some (s, l, c) =>
      match renderLineEntries l c entries with
      | none => none
      | some (ss, l', c') => some (s :: ss, l', c')

/-- Render all lines (joined with `;` by the caller). -/
def renderAllLines (lastSourceLine lastSourceColumn : Int) :
    SourceMapLines → Option (List (List Char) × Int × Int)
  | [] => some ([], lastSourceLine, lastSourceColumn)
  | line :: lines =>
    match renderLineEntries lastSourceLine lastSourceColumn line with
    | none => none
    | some (ss, l, c) =>
      match renderAllLines l c lines with
      | none => none
      | some (rendered, l', c') => some (joinWithChar ',' ss :: rendered, l', c')

/-- `SourceMap.renderMappings` (`sourcemap.civet` lines 72-88), as a function
of the resolved lines (`@lines`). -/
def renderMappings (lines : SourceMapLines) : Option (List Char) :=
  match renderAllLines 0 0 lines with
  | none => none
  | some (rendered, _, _) => some (joinWithChar ';' rendered)

/-! ## `remapPosition` (`sourcemap.civet`, lines 334-369) -/

/-- The `while i < l` scan of `remapPosition`: accumulate `p += mapping[0]`,
track the most recent entry of length exactly 4 and its accumulated column,
and stop at the first entry with `p >= character`. -/
def remapScan (character : Int) :
    SourceMapLine → Int → Option ResolvedSourceMapEntry → Int →
    Option ResolvedSourceMapEntry × Int
  | [], _, lastMapping, lastMappingPosition => (lastMapping, lastMappingPosition)
  | mapping :: rest, p, lastMapping, lastMappingPosition =>
    let p' := p + mapping.getD 0 0
    let (lm, lmp) :=
      if mapping.length = 4 then (some mapping, p') else (lastMapping, lastMappingPosition)
    if p' ≥ character then (lm, lmp)
    else remapScan character rest p' lm lmp

/-- `remapPosition` (`sourcemap.civet` lines 334-369): map a generated
`[line, character]` position back to a source position; `none` unless the
position lands exactly on a tracked mapping. -/
def remapPosition (position : Nat × Int) (sourcemapLines : SourceMapLines) :
    Option (Int × Int) :=
  let (line, character) := position
  let textLine := sourcemapLines.getD line []
  -- `if (!textLine?.length) return undefined`
  if textLine.length = 0 then none
  else
    let (lastMapping, lastMappingPosition) := remapScan character textLine 0 none 0
    if character - lastMappingPosition ≠ 0 then none
    else
      match lastMapping with
      | some m => some (m.getD 2 0, m.getD 3 0)
      | none => none

-- an arity-5 (named) segment is never tracked as a mapping

/-! ## `composeLines` (`sourcemap.civet`, lines 155-176) -/

/-- `SourceMap.composeLines`: rewrite each mapped segment of the downstream
lines through `remapPosition` into the upstream mapping; segments that do not
remap exactly are downgraded to unmapped. -/
def composeLines (upstreamMapping : SourceMapLines) (lines : SourceMapLines) :
    SourceMapLines :=
  lines.map fun line =>
    line.map fun entry =>
      if entry.length = 1 then entry
      else
        -- `[colDelta, sourceFileIndex, srcLine, srcCol] := entry`
        let srcLine := entry.getD 2 0
        let srcCol := entry.getD 3 0
        match remapPosition (srcLine.toNat, srcCol) upstreamMapping with
        | none => [entry.getD 0 0]
        | some (upstreamLine, upstreamCol) =>
          if entry.length = 4 then
            [entry.getD 0 0, entry.getD 1 0, upstreamLine, upstreamCol]
          else
            [entry.getD 0 0, entry.getD 1 0, upstreamLine, upstreamCol, entry.getD 4 0]

/-! ## Location table (`sourcemap.civet`, lines 30-53) -/

/-- One match of the sticky regex `([^\r\n]*)(\r\n|\r|\n|$)`: the length of
the matched chunk (line content plus terminator) and the remaining input. -/
def matchLineChunk (cs : List Char) : Nat × List Char :=
  let content := cs.takeWhile fun c => c ≠ '\r' ∧ c ≠ '\n'
  let rest := cs.dropWhile fun c => c ≠ '\r' ∧ c ≠ '\n'
  match rest with
  | '\r' :: '\n' :: r => (content.length + 2, r)
  | '\r' :: r => (content.length + 1, r)
  | '\n' :: r => (content.length + 1, r)
  | _ => (content.length, rest)   -- `$`: end of input (rest is [])

/-- The scan loop of `locationTable`: record the running offset after each
matched chunk, breaking once the offset reaches the end of the input
(equivalently: once the rest is empty).  The fuel starts at
`input.length + 1` and dominates the iteration count because every
iteration except the last consumes at least one character. -/
def locationTableGo : Nat → List Char → Nat → List Nat
  | 0, _, _ => []
  | fuel + 1, cs, pos =>
    let (len, rest) := matchLineChunk cs
    let pos' := pos + len
    pos' :: (if rest.isEmpty then [] else locationTableGo fuel rest pos')

/-- `locationTable` (`sourcemap.civet` lines 31-43): offsets of the end of
each line of `input`. -/
def locationTable (input : List Char) : List Nat :=
  locationTableGo (input.length + 1) input 0

/-- `lookupLineColumn` (`sourcemap.civet` lines 45-53): zero-based
`[line, column]` for an offset.  The JS loop `while table[l] <= pos` stops at
the end of the table because `undefined <= pos` is false. -/
def lookupLineColumn (table : List Nat) (pos : Nat) : Nat × Nat :=
  go table 0 0
where
  go : List Nat → Nat → Nat → Nat × Nat
    | [], l, prevEnd => (l, pos - prevEnd)
    | t :: rest, l, prevEnd =>
      if t ≤ pos then go rest (l + 1) t else (l, pos - prevEnd)

/-! ## The `SourceMap` builder (`sourcemap.civet`, lines 55-134) -/

/-- The instance state of `class SourceMap`. -/
structure SourceMap where
  source : List Char
  lines : SourceMapLines
  line : Nat
  colOffset : Int
  srcLine : Int
  srcColumn : Int
  srcTable : List Nat
deriving DecidableEq, Repr

/-- The `SourceMap` constructor (`sourcemap.civet` lines 64-70). -/
def SourceMap.create (source : List Char) : SourceMap :=
  { source := source
    lines := [[]]
    line := 0
    colOffset := 0
    srcLine := 0
    srcColumn := 0
    srcTable := locationTable source }

/-- JS `@lines[@line] = []` where `@line` is at most `@lines.length` in every
reachable state (the builder advances `@line` one line at a time). -/
def setLineAt : SourceMapLines → Nat → SourceMapLine → SourceMapLines
  | _ :: ls, 0, v => v :: ls
  | l :: ls, n + 1, v => l :: setLineAt ls n v
  | [], _, v => [v]

/-- JS `@lines[@line].push entry`. -/
def pushSegAt : SourceMapLines → Nat → ResolvedSourceMapEntry → SourceMapLines
  | [], _, _ => []
  | l :: ls, 0, e => (l ++ [e]) :: ls
  | l :: ls, n + 1, e => l :: pushSegAt ls n e

/-- JS `outputStr.split(EOL)` with `EOL := /\r?\n|\r/`. -/
def splitEOL : List Char → List (List Char)
  | [] => [[]]
  | '\r' :: '\n' :: rest => [] :: splitEOL rest
  | '\r' :: rest => [] :: splitEOL rest
  | '\n' :: rest => [] :: splitEOL rest
  | c :: rest =>
    match splitEOL rest with
    | [] => [[c]]          -- unreachable: splitEOL never returns []
    | part :: parts => (c :: part) :: parts

/-- The `for each line, i of outLines` loop of `updateSourceMap`
(`sourcemap.civet` lines 116-133).  `hasInputPos` records whether `inputPos`
was provided; `srcLine0` and `srcCol` are the loop's local `srcLine` /
`srcCol` variables (only read when `hasInputPos` is true, matching the
source's non-null assertions `srcLine!` / `srcCol!`). -/
def updateSourceMapLoop (hasInputPos : Bool) (colOffsetArg srcLine0 : Int) :
    List (List Char) → Nat → Int → SourceMap → SourceMap
  | [], _, _, sm => sm
  | lineStr :: rest, i, srcCol, sm =>
    let (sm, srcCol) :=
      if i > 0 then
        let sm := { sm with
          line := sm.line + 1
          srcLine := sm.srcLine + 1
          colOffset := 0 }
        let sm := { sm with lines := setLineAt sm.lines sm.line [] }
        ({ sm with srcColumn := colOffsetArg }, colOffsetArg)
      else (sm, srcCol)
    let l := sm.colOffset
    let sm := { sm with colOffset := (lineStr.length : Int) }
    let sm := { sm with srcColumn := sm.srcColumn + (lineStr.length : Int) }
    let sm :=
      if hasInputPos then
        { sm with lines := pushSegAt sm.lines sm.line [l, 0, srcLine0 + (i : Int), srcCol] }
      else if l ≠ 0 then
        { sm with lines := pushSegAt sm.lines sm.line [l] }
      else sm
    updateSourceMapLoop hasInputPos colOffsetArg srcLine0 rest (i + 1) srcCol sm

/-- `SourceMap.updateSourceMap` (`sourcemap.civet` lines 105-134). -/
def SourceMap.updateSourceMap (sm : SourceMap) (outputStr : List Char)
    (inputPos : Option Nat) (colOffset : Int) : SourceMap :=
  let outLines := splitEOL outputStr
  match inputPos with
  | some p =>
    let (l, c) := lookupLineColumn sm.srcTable p
    let srcCol : Int := (c : Int) + colOffset
    let sm := { sm with srcLine := (l : Int), srcColumn := srcCol }
    updateSourceMapLoop true colOffset (l : Int) outLines 0 srcCol sm
  | none =>
    -- the local `srcLine` / `srcCol` stay undefined and are never pushed
    updateSourceMapLoop false colOffset 0 outLines 0 0 sm

-- Concrete scenario for claim C5: build over "abc\ndef", update "ab" at 0
-- then "c" at 2.

/-! ## Map document envelope and inline comment (`sourcemap.civet`, lines 90-103, 141-153, 208)

`json` / `comment` / `parseWithLines` call the JavaScript platform functions
`JSON.stringify`, `JSON.parse` and `Buffer` base64 coding.  Those are
external library calls; they are passed in as the `JsExt` record, and the
repository's own logic (the envelope construction, the mappings processing,
the regex strip, the composition) is embedded directly. -/

/-- The `SourceMapJSON` envelope (`sourcemap.civet` lines 16-28). -/
structure SourceMapJSON where
  version : Nat
  file : List Char
  sources : List (List Char)
  mappings : List Char
  names : List (List Char)
  sourcesContent : List (List Char)
deriving DecidableEq, Repr

/-- External JavaScript platform functions used by `json`, `comment`,
`parseWithLines`: `JSON.stringify`, base64 encoding of the stringified
document, and the combined base64-decode + `JSON.parse` of a map document
(which throws on malformed payloads, hence `Except`). -/
structure JsExt where
  stringify : SourceMapJSON → List Char
  base64Encode : List Char → List Char
  parseMapDocument : List Char → Except String SourceMapJSON

/-- `SourceMap.json` (`sourcemap.civet` lines 90-98); `none` when
`renderMappings` does not terminate. -/
def SourceMap.json (sm : SourceMap) (srcFileName outFileName : List Char) :
    Option SourceMapJSON :=
  (renderMappings sm.lines).map fun m =>
    { version := 3
      file := outFileName
      sources := [srcFileName]
      mappings := m
      names := []
      sourcesContent := [sm.source] }

/-- `SourceMap.comment` (`sourcemap.civet` lines 100-103):
`//# sourceMappingURL=data:application/json;base64,` followed by the
base64-encoded stringified envelope. -/
def SourceMap.comment (ext : JsExt) (sm : SourceMap) (srcFileName outFileName : List Char) :
    Option (List Char) :=
  (sm.json srcFileName outFileName).map fun j =>
    "//# sourceMappingURL=data:application/json;base64,".toList ++
      ext.base64Encode (ext.stringify j)

/-- `SourceMap.parseWithLines` (`sourcemap.civet` lines 181-206): decode the
base64 JSON document (external) and resolve its mappings. -/
def parseWithLines (ext : JsExt) (base64encodedJSONstr : List Char) :
    Except String (SourceMapJSON × SourceMapLines) :=
  match ext.parseMapDocument base64encodedJSONstr with
  | .error e => .error e
  | .ok json =>
    match parseMappings json.mappings with
    | .error e => .error e
    | .ok lines => .ok (json, lines)

/-! ## `smRegexp` (`sourcemap.civet`, line 208)

```
/(?:\r?\n|\r)\/\/# sourceMappingURL=data:application\/json;(?:charset=[^;]*;)?base64,([+a-zA-Z0-9\/]*=?=?)(?:\s*)$/
```

The character classes are disjoint (base64 characters, `=`, whitespace), so
the greedy maximal-munch scan below is exactly the regex's backtracking
behaviour. -/

/-- The payload class `[+a-zA-Z0-9/]`. -/
def isBase64Char (c : Char) : Bool :=
  c = '+' ∨ ('a' ≤ c ∧ c ≤ 'z') ∨ ('A' ≤ c ∧ c ≤ 'Z') ∨ ('0' ≤ c ∧ c ≤ '9') ∨ c = '/'

/-- The JS `\s` class (ASCII part; the inputs in this development contain no
non-ASCII whitespace). -/
def isJsWhitespace (c : Char) : Bool :=
  c = ' ' ∨ c = '\t' ∨ c = '\n' ∨ c = '\r' ∨ c = '\x0b' ∨ c = '\x0c'

/-- Match the body of `smRegexp` after its leading newline, at the current
position, through to end of input; returns the captured payload. -/
def smMatchAfterNewline (cs : List Char) : Option (List Char) :=
  let lit := "//# sourceMappingURL=data:application/json;".toList
  if lit.isPrefixOf cs then
    let r0 := cs.drop lit.length
    -- optional `(?:charset=[^;]*;)?`; if the group cannot complete, the
    -- regex falls back to matching without it
    let r1 :=
      let cl := "charset=".toList
      if cl.isPrefixOf r0 then
        match (r0.drop cl.length).dropWhile (· ≠ ';') with
        | ';' :: r2 => r2
        | _ => r0
      else r0
    let b64 := "base64,".toList
    if b64.isPrefixOf r1 then
      let r2 := r1.drop b64.length
      let payloadRun := r2.takeWhile isBase64Char
      let r3 := r2.dropWhile isBase64Char
      let (eqs, r4) :=
        match r3 with
        | '=' :: '=' :: r => (['=', '='], r)
        | '=' :: r => (['='], r)
        | r => ([], r)
      if r4.all isJsWhitespace then some (payloadRun ++ eqs) else none
    else none
  else none

/-- Match `smRegexp` at the current position (leading `\r\n`, `\r` or `\n`
followed by the comment body reaching end of input). -/
def smMatchAt : List Char → Option (List Char)
  | '\r' :: '\n' :: r => smMatchAfterNewline r
  | '\r' :: r => smMatchAfterNewline r
  | '\n' :: r => smMatchAfterNewline r
  | _ => none

/-- The leftmost-match scan of `codeWithSourceMap.replace smRegexp, ...`:
returns the code before the match and the captured payload, or `none` when
the regex does not match (in which case `replace` leaves the string
unchanged and the callback never runs). -/
def stripSMCommentGo : List Char → Option (List Char × List Char)
  | [] => none
  | c :: rest =>
    match smMatchAt (c :: rest) with
    | some payload => some ([], payload)
    | none =>
      match stripSMCommentGo rest with
      | some (pre, payload) => some (c :: pre, payload)
      | none => none

def stripSMComment (code : List Char) : Option (List Char × List Char) :=
  stripSMCommentGo code

-- an inline comment not at the end of input does not match (`$` anchor)

/-- `SourceMap.remap` (`sourcemap.civet` lines 141-153): strip a trailing
inline map comment; when one was found (with a JS-truthy, i.e. non-empty,
payload) parse it and replace the upstream map's lines with the composition;
append a fresh inline comment derived from the (possibly updated) upstream
map.  The outer `Option` is `none` when `comment`'s `renderMappings` does
not terminate; the `Except` models exceptions thrown by `parseWithLines`. -/
def SourceMap.remap (ext : JsExt) (codeWithSourceMap : List Char)
    (upstreamMap : SourceMap) (sourcePath targetPath : List Char) :
    Option (Except String (List Char × SourceMap)) :=
  let (codeWithoutSourceMap, sourceMapText) :=
    match stripSMComment codeWithSourceMap with
    | none => (codeWithSourceMap, none)
    | some (code, sm) => (code, some sm)
  let composed : Except String SourceMap :=
    match sourceMapText with
    | some smText =>
      if smText ≠ [] then   -- `if sourceMapText`: JS-falsy for the empty capture
        match parseWithLines ext smText with
        | .error e => .error e
        | .ok (_, parsedLines) =>
          .ok { upstreamMap with lines := composeLines upstreamMap.lines parsedLines }
      else .ok upstreamMap
    | none => .ok upstreamMap
  match composed with
  | .error e => some (.error e)
  | .ok upstreamMap' =>
    match SourceMap.comment ext upstreamMap' sourcePath targetPath with
    | none => none
    | some cmt => some (.ok (codeWithoutSourceMap ++ '\n' :: cmt, upstreamMap'))

/-! ## Virtual-file host (`src/lsp/source/lib/typescript-service.mts`)

The host (`TSHost`) is a bundle of closures over shared mutable maps.  It is
embedded as explicit state passing: `HostState` holds the mutable maps and
counters, `HostEnv` the fixed collaborators (the transpiler registry and the
file system `sys.readFile`).  JS `Map`s are association lists preserving
insertion order; JS `Set`s are duplicate-free lists.

Documents (`TextDocument`) are mutable objects shared between `pathMap` and
`FileMeta.transpiledDoc`; `pathMap` is modelled as the single store, and the
metadata holds the document's path (the identity of the shared reference).
Snapshots are modelled by their text. -/

/-- A `TextDocument` (path stands for the `file://` URI). -/
structure TextDoc where
  path : String
  languageId : String
  version : Int
  text : String
deriving DecidableEq, Repr

/-- The `sourceMap` field of a compile result: `sourceMap?.lines` with the
older-Civet fallback `sourceMap?.data.lines`. -/
structure SMapField where
  lines : Option SourceMapLines
  dataLines : Option SourceMapLines
deriving DecidableEq, Repr

/-- The object returned by `Transpiler.compile` on success. -/
structure CompileResult where
  code : String
  sourceMap : Option SMapField
  errors : Option (List String)
deriving DecidableEq, Repr

/-- A `Transpiler` registry entry; `compile` may throw (`.error`) or return
`undefined` (`.ok none`). -/
structure Transpiler where
  extension : String
  target : String
  compile : String → String → Except String (Option CompileResult)

/-- `FileMeta` (`typescript-service.mts` lines 59-64). -/
structure FileMeta where
  sourcemapLines : Option SourceMapLines
  transpiledDocPath : String
  parseErrors : Option (List String)
  fatal : Option Bool
deriving DecidableEq, Repr

structure HostEnv where
  transpilers : List (String × Transpiler)
  fsReadFile : String → Option String

structure HostState where
  scriptFileNames : List String
  fileMetaData : List (String × FileMeta)
  pathMap : List (String × TextDoc)
  snapshotMap : List (String × String)
  projectVersion : Int
deriving DecidableEq, Repr

/-- JS `Map.prototype.get` (keys are unique in every reachable state). -/
def mapGet {α : Type} : List (String × α) → String → Option α
  | [], _ => none
  | p :: rest, k => if p.1 = k then some p.2 else mapGet rest k

/-- JS `Map.prototype.set`: replace in place when the key is present,
append otherwise. -/
def mapSet {α : Type} : List (String × α) → String → α → List (String × α)
  | [], k, v => [(k, v)]
  | p :: rest, k, v => if p.1 = k then (k, v) :: rest else p :: mapSet rest k v

/-- JS `Map.prototype.delete`. -/
def mapDelete {α : Type} : List (String × α) → String → List (String × α)
  | [], _ => []
  | p :: rest, k => if p.1 = k then rest else p :: mapDelete rest k

/-- JS `Set.prototype.add`. -/
def setAdd (s : List String) (k : String) : List String :=
  if s.contains k then s else s ++ [k]

/-! Extension helpers (`typescript-service.mts` lines 577-628). -/

/-- The regex `(?:\.(?:[^./]+))?$` of `getExtensionFromPath`: the last
extension including its dot, or empty. -/
def lastExtensionOf (path : List Char) : List Char :=
  let rev := path.reverse
  let run := rev.takeWhile fun c => c ≠ '.' ∧ c ≠ '/'
  match rev.drop run.length with
  | '.' :: _ => if run = [] then [] else '.' :: run.reverse
  | _ => []

def getExtensionFromPath (path : String) : String :=
  String.mk (lastExtensionOf path.toList)

/-- The regex `(\.[^./]*)(\.[^./]*)$` of `getTranspiledExtensionsFromPath`:
the last two extensions of a path. -/
def lastTwoExtensionsOf (path : List Char) : Option (List Char × List Char) :=
  let rev := path.reverse
  let run2 := rev.takeWhile fun c => c ≠ '.' ∧ c ≠ '/'
  match rev.drop run2.length with
  | '.' :: r =>
    let run1 := r.takeWhile fun c => c ≠ '.' ∧ c ≠ '/'
    match r.drop run1.length with
    | '.' :: _ => some ('.' :: run1.reverse, '.' :: run2.reverse)
    | _ => none
  | _ => none

def getTranspiledExtensionsFromPath (path : String) : Option (String × String) :=
  (lastTwoExtensionsOf path.toList).map fun p => (String.mk p.1, String.mk p.2)

/-- `removeExtension` (`typescript-service.mts` lines 626-628):
`path.replace(/\.[^\/.]+$/, "")`. -/
def removeExtension (path : String) : String :=
  let rev := path.toList.reverse
  let run := rev.takeWhile fun c => c ≠ '.' ∧ c ≠ '/'
  match rev.drop run.length with
  | '.' :: r => if run = [] then path else String.mk r.reverse
  | _ => path

/-- `getCanonicalFileName` is `path.join(fileName)`, a slash normalization;
the paths in this development are already in canonical form. -/
def getCanonicalFileName (fileName : String) : String := fileName

def lookupTranspiler (env : HostEnv) (ext : String) : Option Transpiler :=
  mapGet env.transpilers ext

/-- `initTranspiledDoc` (`typescript-service.mts` lines 433-444): create an
empty mirror document at version `-1`, register it in `pathMap` and
`scriptFileNames`. -/
def initTranspiledDoc (st : HostState) (path : String) : TextDoc × HostState :=
  let transpiledDoc : TextDoc := { path := path, languageId := "none", version := -1, text := "" }
  let st := { st with pathMap := mapSet st.pathMap path transpiledDoc }
  let st := { st with scriptFileNames := setAdd st.scriptFileNames path }
  (transpiledDoc, st)

/-- `createOrUpdateMeta` (`typescript-service.mts` lines 393-410).  When the
metadata exists, only `sourcemapLines`, `parseErrors` and `fatal` are
overwritten (with exactly the values passed, `undefined` included). -/
def createOrUpdateMeta (st : HostState) (path : String) (transpiledDoc : TextDoc)
    (sourcemapLines : Option SourceMapLines) (parseErrors : Option (List String))
    (fatal : Option Bool) : HostState :=
  match mapGet st.fileMetaData path with
  | none =>
    let meta : FileMeta :=
      { sourcemapLines := sourcemapLines
        transpiledDocPath := transpiledDoc.path
        parseErrors := parseErrors
        fatal := fatal }
    { st with fileMetaData := mapSet st.fileMetaData path meta }
  | some meta =>
    let meta' : FileMeta :=
      { meta with sourcemapLines := sourcemapLines, parseErrors := parseErrors, fatal := fatal }
    { st with fileMetaData := mapSet st.fileMetaData path meta' }

/-- `doTranspileAndUpdateMeta` (`typescript-service.mts` lines 412-431): call
`compile`, catching any thrown error into the metadata (`fatal = true`);
on success store fresh metadata and update the mirror document. -/
def doTranspileAndUpdateMeta (st : HostState) (transpiledDoc : TextDoc) (version : Int)
    (transpiler : Transpiler) (sourcePath sourceCode : String) :
    Option String × HostState :=
  match transpiler.compile sourcePath sourceCode with
  | .error e =>
    (none, createOrUpdateMeta st sourcePath transpiledDoc none (some [e]) (some true))
  | .ok none => (none, st)
  | .ok (some result) =>
    -- `sourceMap?.lines ?? sourceMap?.data.lines`
    let sourceMapLines :=
      match result.sourceMap with
      | none => none
      | some sm =>
        match sm.lines with
        | some ls => some ls
        | none => sm.dataLines
    let st := createOrUpdateMeta st sourcePath transpiledDoc sourceMapLines result.errors (some false)
    -- `TextDocument.update(transpiledDoc, [{text}], version)` mutates the
    -- shared mirror document; `pathMap` is its single store here
    let updatedDoc : TextDoc := { transpiledDoc with text := result.code, version := version }
    let st := { st with pathMap := mapSet st.pathMap transpiledDoc.path updatedDoc }
    (some result.code, st)

/-- `getPathSource` (`typescript-service.mts` lines 317-329). -/
def getPathSource (env : HostEnv) (st : HostState) (path : String) : String :=
  match mapGet st.pathMap path with
  | some doc => doc.text
  | none =>
    match env.fsReadFile path with
    | some s => s
    | none => ""

/-- `getOrCreatePathSnapshot` (`typescript-service.mts` lines 341-391). -/
def getOrCreatePathSnapshot (env : HostEnv) (st : HostState) (path : String) :
    String × HostState :=
  match mapGet st.snapshotMap path with
  | some snapshot => (snapshot, st)
  | none =>
    -- `if exts && (transpiler = transpilers.get(exts[0]))`
    match (getTranspiledExtensionsFromPath path).bind
        (fun exts => lookupTranspiler env exts.1) with
    | some transpiler =>
      let sourcePath := removeExtension path
      let sourceDoc := mapGet st.pathMap sourcePath
      let (transpiledDoc, st) :=
        match mapGet st.pathMap path with
        | some d => (d, st)
        | none => initTranspiledDoc st path
      let (source, sourceDocVersion) :=
        match sourceDoc with
        | none => (env.fsReadFile sourcePath, (0 : Int))
        | some d => (some d.text, d.version)
      let (freshSnapshot, st) :=
        match source with
        | some src =>
          -- `if source && sourceDocVersion > transpiledDoc.version`
          -- (JS truthiness: the empty string is falsy)
          if src ≠ "" ∧ sourceDocVersion > transpiledDoc.version then
            doTranspileAndUpdateMeta st transpiledDoc sourceDocVersion transpiler sourcePath src
          else (none, st)
        | none => (none, st)
      let snapshot :=
        match freshSnapshot with
        | some code => code
        | none => transpiledDoc.text   -- use the old version if there was an error
      (snapshot, { st with snapshotMap := mapSet st.snapshotMap path snapshot })
    | none =>
      let snapshot := getPathSource env st path
      (snapshot, { st with snapshotMap := mapSet st.snapshotMap path snapshot })

/-- `getScriptSnapshot` (`typescript-service.mts` lines 289-294). -/
def getScriptSnapshot (env : HostEnv) (st : HostState) (path : String) :
    String × HostState :=
  getOrCreatePathSnapshot env st (getCanonicalFileName path)

/-- `getTranspiledPath` (`typescript-service.mts` lines 331-339). -/
def getTranspiledPath (env : HostEnv) (path : String) : String :=
  match lookupTranspiler env (getExtensionFromPath path) with
  | some transpiler => path ++ transpiler.target
  | none => path

/-- `getMeta` (`typescript-service.mts` lines 272-278): force the mirror
snapshot (and hence any pending transpile), then read the metadata. -/
def getMeta (env : HostEnv) (st : HostState) (path : String) :
    Option FileMeta × HostState :=
  let transpiledPath := getTranspiledPath env path
  let (_, st) := getOrCreatePathSnapshot env st transpiledPath
  (mapGet st.fileMetaData path, st)

/-- `addOrUpdateDocument` (`typescript-service.mts` lines 229-271). -/
def addOrUpdateDocument (env : HostEnv) (st : HostState) (doc : TextDoc) : HostState :=
  let path := doc.path   -- `fileURLToPath(doc.uri)`
  let st := { st with snapshotMap := mapDelete st.snapshotMap path }
  let st := { st with projectVersion := st.projectVersion + 1 }
  let extension := getExtensionFromPath path
  match lookupTranspiler env extension with
  | some transpiler =>
    let transpiledPath := path ++ transpiler.target
    let st :=
      match mapGet st.pathMap transpiledPath with
      | some _ => st
      | none => (initTranspiledDoc st transpiledPath).2
    let st := { st with snapshotMap := mapDelete st.snapshotMap transpiledPath }
    { st with pathMap := mapSet st.pathMap path doc }
  | none =>
    -- plain non-transpiled document
    let st :=
      if st.scriptFileNames.contains path then st
      else { st with scriptFileNames := st.scriptFileNames ++ [path] }
    if (mapGet st.pathMap path).isSome then st
    else { st with pathMap := mapSet st.pathMap path doc }

/-! ## Snapshot change ranges (`typescript-service.mts`, lines 646-700) -/

/-- `ts.TextChangeRange`: `{span: {start, length}, newLength}`. -/
structure JsTextChangeRange where
  start : Int
  length : Int
  newLength : Int
deriving DecidableEq, Repr

/-- The forward scan of `fullDiffTextChangeRange`
(`for (let start = 0; start < minLength; start++)`): the first index where
the texts differ.  The counter argument is `minLength - start`. -/
def scanMismatch (oldText newText : List Char) : Nat → Nat → Option Nat
  | 0, _ => none
  | k + 1, start =>
    if oldText.getD start ' ' ≠ newText.getD start ' ' then some start
    else scanMismatch oldText newText k (start + 1)

/-- The backward scan (`for (let i = 0; i < stop; i++) ... end--`), breaking
at the first mismatching pair of characters counted from the ends.  The
counter argument is `stop - i`. -/
def suffixScanEnd (oldText newText : List Char) : Nat → Nat → Nat → Nat
  | 0, _, e => e
  | k + 1, i, e =>
    if oldText.getD (oldText.length - i - 1) ' ' ≠ newText.getD (newText.length - i - 1) ' '
    then e
    else suffixScanEnd oldText newText k (i + 1) (e - 1)

/-- `fullDiffTextChangeRange` (`typescript-service.mts` lines 646-677). -/
def fullDiffTextChangeRange (oldText newText : List Char) : Option JsTextChangeRange :=
  let oldTextLength := oldText.length
  let newTextLength := newText.length
  let minLength := min oldTextLength newTextLength
  match scanMismatch oldText newText minLength 0 with
  | none => none
  | some start =>
    let stop := minLength - start
    let e := suffixScanEnd oldText newText stop 0 oldTextLength
    let length : Int := (e : Int) - (start : Int)
    let newLength : Int := length + ((newTextLength : Int) - (oldTextLength : Int))
    if newLength < 0 then
      some { start := (start : Int), length := length - newLength, newLength := 0 }
    else
      some { start := (start : Int), length := length, newLength := newLength }

/-- `Snap(newText).getChangeRange(oldSnapshot)` (`typescript-service.mts`
lines 679-700) computes `fullDiffTextChangeRange(oldText, newText)` on first
call and memoises it per old snapshot; the memoisation is referential and
does not change the computed value. -/
def snapGetChangeRange (newText oldText : List Char) : Option JsTextChangeRange :=
  fullDiffTextChangeRange oldText newText

/-! ## Concrete host fixtures used by witnesses and counterexamples -/

/-- A concrete transpiler: succeeds on source `"good"` (with a one-segment
source map), throws `"boom"` on anything else. -/
def testTranspiler : Transpiler :=
  { extension := ".civet"
    target := ".tsx"
    compile := fun _ source =>
      if source = "good" then
        .ok (some
          { code := "ok"
            sourceMap := some { lines := some [[[0, 0, 0, 0]]], dataLines := none }
            errors := some [] })
      else .error "boom" }

def testEnv : HostEnv :=
  { transpilers := [(".civet", testTranspiler)]
    fsReadFile := fun _ => none }

def emptyHost : HostState :=
  { scriptFileNames := []
    fileMetaData := []
    pathMap := []
    snapshotMap := []
    projectVersion := 0 }

def docV1 : TextDoc := { path := "a.civet", languageId := "civet", version := 1, text := "good" }
def docV2 : TextDoc := { path := "a.civet", languageId := "civet", version := 2, text := "bad" }

/-- State after registering version 1 of `a.civet`. -/
def hostStep1 : HostState := addOrUpdateDocument testEnv emptyHost docV1
/-- State after the first (successful) mirror snapshot request. -/
def hostStep2 : HostState := (getScriptSnapshot testEnv hostStep1 "a.civet.tsx").2
/-- State after registering version 2 (whose compile throws). -/
def hostStep3 : HostState := addOrUpdateDocument testEnv hostStep2 docV2
/-- State after the second (throwing) mirror snapshot request. -/
def hostStep4 : HostState := (getScriptSnapshot testEnv hostStep3 "a.civet.tsx").2

/-! ## Auxiliary definitions used by the proofs -/

/-- Little-endian base-32 digits of a positive natural number. -/
def vlqDigits (x : Nat) : List Nat :=
  if _ : x = 0 then [] else (x % 32) :: vlqDigits (x / 32)
termination_by x
decreasing_by exact Nat.div_lt_self (by omega) (by norm_num)

/-- The characters emitted for a digit list: continuation bit (+32) on every
chunk except the last. -/
def vlqChunkChars : List Nat → List Char
  | [] => []
  | [d] => [BASE64_CHARS.getD d 'A']
  | d :: ds => BASE64_CHARS.getD (d + 32) 'A' :: vlqChunkChars ds

/-- The characters `encodeVlq` produces for a value it terminates on:
the base-32 chunks of `2|v| + signBit`. -/
def vlqEncChars (v : Int) : List Char :=
  let mag := 2 * v.natAbs + (if v < 0 then 1 else 0)
  if mag = 0 then ['A'] else vlqChunkChars (vlqDigits mag)

/-- The concatenation of the encodings of a list of values. -/
def vlqEncList : List Int → List Char
  | [] => []
  | v :: vs => vlqEncChars v ++ vlqEncList vs

/-- A character the decoder accepts: code at most `0x7F` and present in the
lookup table. -/
def ValidVlqChar (c : Char) : Prop := c.toNat ≤ 127 ∧ vlqTable c.toNat ≠ 255

instance (c : Char) : Decidable (ValidVlqChar c) :=
  inferInstanceAs (Decidable (c.toNat ≤ 127 ∧ vlqTable c.toNat ≠ 255))

/-- Length of the longest common prefix of two strings. -/
def lcpLen : List Char → List Char → Nat
  | a :: as, b :: bs => if a = b then lcpLen as bs + 1 else 0
  | _, _ => 0

/-- Length of the longest common suffix of two strings. -/
def lcsLen (a b : List Char) : Nat := lcpLen a.reverse b.reverse

def plainDocOld : TextDoc := { path := "f.ts", languageId := "ts", version := 1, text := "old" }
def plainDocNew : TextDoc := { path := "f.ts", languageId := "ts", version := 2, text := "new" }
def plainHost : HostState :=
  { scriptFileNames := []
    fileMetaData := []
    pathMap := [("f.ts", plainDocOld)]
    snapshotMap := []
    projectVersion := 0 }

def trivialJsExt : JsExt :=
  { stringify := fun _ => []
    base64Encode := fun cs => cs
    parseMapDocument := fun _ => .error "no JSON document" }

/-! ## Arithmetic facts about the int32 primitives -/

theorem toInt32_of_range {x : Int} (h0 : -(2 ^ 31) ≤ x) (h1 : x < 2 ^ 31) :
    toInt32 x = x := by
  unfold toInt32
  rw [Int.emod_eq_of_lt (by omega) (by omega)]
  omega

theorem uint32_of_range {x : Int} (h0 : 0 ≤ x) (h1 : x < 2 ^ 31) :
    uint32 x = x.toNat := by
  unfold uint32
  rw [toInt32_of_range (by omega) h1, Int.emod_eq_of_lt (by omega) (by omega)]

theorem jsShr_of_range {x : Int} (k : Nat) (h0 : 0 ≤ x) (h1 : x < 2 ^ 31) :
    jsShr x k = x / 2 ^ (k % 32) := by
  unfold jsShr
  rw [toInt32_of_range (by omega) h1, Int.fdiv_eq_ediv _ (by positivity)]

theorem jsAndMask_of_range {x : Int} (p : Nat) (h0 : 0 ≤ x) (h1 : x < 2 ^ 31) :
    jsAndMask x p = x % 2 ^ p := by
  unfold jsAndMask
  rw [toInt32_of_range (by omega) h1]

theorem jsShl_of_range {x : Int} (k : Nat) (h0 : 0 ≤ x) (hk : k < 32)
    (h1 : x * 2 ^ k < 2 ^ 31) : jsShl x k = x * 2 ^ k := by
  unfold jsShl
  have hk1 : (1 : Int) ≤ 2 ^ k := by
    have := pow_pos (by norm_num : (0 : Int) < 2) k
    omega
  have hx31 : x < 2 ^ 31 := by
    calc x ≤ x * 2 ^ k := le_mul_of_one_le_right h0 hk1
    _ < 2 ^ 31 := h1
  have hprod : (0 : Int) ≤ x * 2 ^ k := mul_nonneg h0 (by positivity)
  rw [Nat.mod_eq_of_lt hk, toInt32_of_range (by omega) hx31,
    toInt32_of_range (by omega) h1]

/-- Bitwise or of naturals with disjoint bit ranges is addition. -/
theorem lor_disjoint_add {n a b : Nat} (ha : a % 2 ^ n = 0) (hb : b < 2 ^ n) :
    Nat.lor a b = a + b := by
  show a ||| b = a + b
  obtain ⟨c, hc⟩ := Nat.dvd_of_mod_eq_zero ha
  apply Nat.eq_of_testBit_eq
  intro i
  rw [Nat.testBit_lor]
  rcases lt_or_ge i n with h | h
  · -- bits below `n`: `a` contributes nothing
    obtain ⟨d, hd⟩ : (2 : Nat) ^ i ∣ a := dvd_trans (pow_dvd_pow 2 (le_of_lt h)) ⟨c, hc⟩
    have hdeven : d % 2 = 0 := by
      have h2 : (2 : Nat) ^ i * d = 2 ^ i * (2 ^ (n - i) * c) := by
        rw [← hd, hc, ← mul_assoc, ← pow_add]
        congr 2
        omega
      have hdc : d = 2 ^ (n - i) * c :=
        Nat.eq_of_mul_eq_mul_left (by positivity) h2
      rcases Nat.exists_eq_succ_of_ne_zero (by omega : n - i ≠ 0) with ⟨m, hm⟩
      have h3 : d = 2 * (2 ^ m * c) := by
        rw [hdc, hm, pow_succ]
        ring
      omega
    have hbita : a.testBit i = false := by
      rw [Nat.testBit_to_div_mod, hd, Nat.mul_div_cancel_left _ (by positivity : 0 < (2:Nat) ^ i)]
      simp [hdeven]
    have hbitab : (a + b).testBit i = b.testBit i := by
      have h1 : (a + b) / 2 ^ i = d + b / 2 ^ i := by
        rw [hd, Nat.mul_add_div (by positivity : 0 < (2:Nat) ^ i)]
      have h2 : (d + b / 2 ^ i) % 2 = b / 2 ^ i % 2 := by omega
      rw [Nat.testBit_to_div_mod, Nat.testBit_to_div_mod, h1, h2]
    rw [hbita, hbitab, Bool.false_or]
  · -- bits at or above `n`: `b` contributes nothing
    have hbi : b < 2 ^ i := lt_of_lt_of_le hb (Nat.pow_le_pow_right (by omega) h)
    have hbitb : b.testBit i = false := Nat.testBit_eq_false_of_lt hbi
    have hbitab : (a + b).testBit i = a.testBit i := by
      rw [Nat.testBit_to_div_mod, Nat.testBit_to_div_mod]
      have hsplit : (2 : Nat) ^ i = 2 ^ n * 2 ^ (i - n) := by
        rw [← pow_add]
        congr 1
        omega
      have hab : (a + b) / 2 ^ i = a / 2 ^ i := by
        rw [hsplit, ← Nat.div_div_eq_div_mul, ← Nat.div_div_eq_div_mul, hc,
          Nat.mul_add_div (by positivity : 0 < (2:Nat) ^ n),
          Nat.div_eq_of_lt hb, Nat.mul_div_cancel_left _ (by positivity : 0 < (2:Nat) ^ n),
          Nat.add_zero]
      rw [hab]
    rw [hbitb, hbitab, Bool.or_false]

/-- `jsOr` of in-range disjoint values is addition. -/
theorem jsOr_add {x y : Int} {n : Nat} (hx : 0 ≤ x) (hxn : x < 2 ^ n)
    (hy : 0 ≤ y) (hyn : (y.toNat) % 2 ^ n = 0) (hsum : x + y < 2 ^ 31) :
    jsOr y x = y + x := by
  unfold jsOr
  have h2n : (0 : Int) < 2 ^ n := by positivity
  have hx31 : x < 2 ^ 31 := by omega
  have hy31 : y < 2 ^ 31 := by omega
  rw [uint32_of_range hy hy31, uint32_of_range hx hx31]
  have hxn' : x.toNat < 2 ^ n := by
    have h1 : ((2 : Int) ^ n) = ((2 ^ n : Nat) : Int) := by push_cast; ring
    omega
  rw [lor_disjoint_add hyn hxn']
  have hofnat : (Int.ofNat (y.toNat + x.toNat)) = y + x := by
    rw [Int.ofNat_eq_natCast]
    push_cast
    omega
  rw [hofnat, toInt32_of_range (by omega) (by omega)]

theorem jsOr_comm (a b : Int) : jsOr a b = jsOr b a := by
  unfold jsOr
  congr 2
  exact Nat.lor_comm _ _

/-- `jsOr` of a small value with a disjoint multiple of `2 ^ n`. -/
theorem jsOr_mul_pow_add (vlq : Int) (d n : Nat) (hvlq0 : 0 ≤ vlq)
    (hvlqn : vlq < 2 ^ n) (hsum : vlq + (d : Int) * 2 ^ n < 2 ^ 31) :
    jsOr vlq ((d : Int) * 2 ^ n) = vlq + (d : Int) * 2 ^ n := by
  have hcast : ((d : Int) * 2 ^ n) = ((d * 2 ^ n : Nat) : Int) := by push_cast; ring
  have hd0 : (0 : Int) ≤ (d : Int) * 2 ^ n := by positivity
  rw [jsOr_comm]
  rw [jsOr_add hvlq0 hvlqn (by omega) (by rw [hcast, Int.toNat_natCast]; exact Nat.mul_mod_left _ _)
    (by omega)]
  ring

theorem nat_and_31 (d : Nat) : d &&& 31 = d % 32 := by
  have h := Nat.and_pow_two_sub_one_eq_mod d 5
  norm_num at h
  exact h

theorem nat_and_32_of_lt {d : Nat} (h : d < 32) : d &&& 32 = 0 := by
  have h2 := Nat.and_two_pow d 5
  norm_num at h2
  rw [h2, Nat.testBit_eq_false_of_lt (by omega)]
  simp

theorem nat_add32_and_32 {d : Nat} (h : d < 32) : (d + 32) &&& 32 = 32 := by
  have h2 := Nat.and_two_pow (d + 32) 5
  norm_num at h2
  rw [h2]
  have : (d + 32).testBit 5 = true := by
    rw [Nat.testBit_to_div_mod]
    norm_num
    omega
  rw [this]
  simp

/-- Properties of the VLQ table on the base64 alphabet, by finite check. -/
theorem vlqTable_base64 : ∀ d : Fin 64,
    vlqTable (BASE64_CHARS.getD (d : Nat) 'A').toNat = (d : Nat) ∧
    (BASE64_CHARS.getD (d : Nat) 'A').toNat ≤ 127 := by decide

/-! ### The base-32 digit characterisation of the encode loop -/

theorem vlqDigits_of_pos {x : Nat} (h : x ≠ 0) :
    vlqDigits x = (x % 32) :: vlqDigits (x / 32) := by
  rw [vlqDigits]
  simp [h]

theorem vlqDigits_length_le : ∀ k x : Nat, x < 32 ^ k → (vlqDigits x).length ≤ k := by
  intro k
  induction k with
  | zero =>
    intro x hx
    interval_cases x
    simp [vlqDigits]
  | succ k ih =>
    intro x hx
    by_cases h : x = 0
    · simp [h, vlqDigits]
    · rw [vlqDigits_of_pos h]
      have : x / 32 < 32 ^ k := by
        rw [Nat.div_lt_iff_lt_mul (by norm_num)]
        calc x < 32 ^ (k + 1) := hx
        _ = 32 ^ k * 32 := by ring
      simpa using ih (x / 32) this

theorem jsOr_small_32 : ∀ d : Fin 32, jsOr ((d : Nat) : Int) 32 = ((d : Nat) : Int) + 32 := by
  decide

theorem vlqDigits_zero : vlqDigits 0 = [] := by
  rw [vlqDigits]
  simp

theorem encodeVlqLoop_zero_done (f : Nat) (acc : List Char) (h : acc ≠ []) :
    encodeVlqLoop f 0 acc = some acc := by
  rw [encodeVlqLoop.eq_def]
  simp [h]

/-- The encode loop on a positive in-range value emits exactly the base-32
chunks of the value, least significant first, with continuation bits on all
but the last. -/
theorem encodeVlqLoop_spec : ∀ fuel x acc, 0 < x → x < 2 ^ 31 →
    (vlqDigits x).length ≤ fuel →
    encodeVlqLoop fuel ((x : Nat) : Int) acc = some (acc ++ vlqChunkChars (vlqDigits x)) := by
  intro fuel
  induction fuel with
  | zero =>
    intro x acc hx _ hlen
    rw [vlqDigits_of_pos (by omega)] at hlen
    simp at hlen
  | succ f ih =>
    intro x acc hx hx31 hlen
    have hx31' : ((x : Nat) : Int) < 2 ^ 31 := by exact_mod_cast hx31
    have hAnd : jsAndMask ((x : Nat) : Int) VLQ_SHIFT = ((x % 32 : Nat) : Int) := by
      rw [jsAndMask_of_range _ (by positivity) hx31']
      show ((x : Nat) : Int) % 2 ^ 5 = ((x % 32 : Nat) : Int)
      norm_num
    have hShr : jsShr ((x : Nat) : Int) VLQ_SHIFT = ((x / 32 : Nat) : Int) := by
      rw [jsShr_of_range _ (by positivity) hx31']
      show ((x : Nat) : Int) / 2 ^ (5 % 32) = ((x / 32 : Nat) : Int)
      norm_num
    rw [encodeVlqLoop]
    rw [if_pos (Or.inl (by exact_mod_cast hx.ne' : ((x : Nat) : Int) ≠ 0))]
    simp only [hAnd, hShr]
    by_cases h32 : x / 32 = 0
    · -- last chunk: no continuation bit
      have hxlt : x < 32 := by omega
      have hxmod : x % 32 = x := Nat.mod_eq_of_lt hxlt
      rw [h32]
      simp only [Nat.cast_zero]
      rw [if_neg (by norm_num)]
      rw [Int.toNat_natCast]
      rw [encodeVlqLoop_zero_done f _ (by simp)]
      rw [vlqDigits_of_pos (by omega), h32, vlqDigits_zero, hxmod]
      simp [vlqChunkChars]
    · -- continuation chunk
      have hne : ((x / 32 : Nat) : Int) ≠ 0 := by exact_mod_cast h32
      rw [if_pos hne]
      have hOr : jsOr ((x % 32 : Nat) : Int) VLQ_CONTINUATION_BIT =
          ((x % 32 : Nat) : Int) + 32 :=
        jsOr_small_32 ⟨x % 32, Nat.mod_lt _ (by norm_num)⟩
      rw [hOr]
      have htoNat : (((x % 32 : Nat) : Int) + 32).toNat = x % 32 + 32 := by omega
      rw [htoNat]
      have hrec := ih (x / 32) (acc ++ [BASE64_CHARS.getD (x % 32 + 32) 'A'])
        (by omega) (by omega)
        (by rw [vlqDigits_of_pos (by omega : x ≠ 0)] at hlen; simpa using hlen)
      rw [hrec]
      rw [vlqDigits_of_pos (by omega : x ≠ 0)]
      rw [vlqDigits_of_pos h32]
      show _ = some (acc ++ vlqChunkChars (x % 32 :: (x / 32) % 32 :: vlqDigits (x / 32 / 32)))
      rw [show vlqChunkChars (x % 32 :: (x / 32) % 32 :: vlqDigits (x / 32 / 32)) =
        BASE64_CHARS.getD (x % 32 + 32) 'A' ::
          vlqChunkChars ((x / 32) % 32 :: vlqDigits (x / 32 / 32)) from rfl]
      rw [← vlqDigits_of_pos h32]
      simp

theorem encodeVlq_spec (v : Int) (h : v.natAbs < 2 ^ 30) :
    encodeVlq v = some (vlqEncChars v) := by
  by_cases hv : v = 0
  · rw [hv]
    decide
  · have hif : (if v < 0 then (1 : Nat) else 0) ≤ 1 := by split <;> norm_num
    have hm : (0 : Nat) < 2 * v.natAbs + (if v < 0 then 1 else 0) := by
      have : v.natAbs ≠ 0 := Int.natAbs_ne_zero.mpr hv
      omega
    have hA0 : encodeVlq v =
        encodeVlqLoop 64 (jsShl (Int.ofNat v.natAbs) 1 + (if v < 0 then (1 : Int) else 0)) [] :=
      rfl
    have harg : jsShl (Int.ofNat v.natAbs) 1 + (if v < 0 then (1 : Int) else 0) =
        ((2 * v.natAbs + (if v < 0 then 1 else 0) : Nat) : Int) := by
      rw [Int.ofNat_eq_natCast]
      rw [jsShl_of_range 1 (by positivity) (by norm_num) (by omega)]
      by_cases hvneg : v < 0 <;> simp [hvneg] <;> ring
    have hB : vlqEncChars v =
        vlqChunkChars (vlqDigits (2 * v.natAbs + (if v < 0 then 1 else 0))) := by
      show (if 2 * v.natAbs + (if v < 0 then 1 else 0) = 0 then ['A']
        else vlqChunkChars (vlqDigits (2 * v.natAbs + (if v < 0 then 1 else 0)))) = _
      rw [if_neg (by omega)]
    have hlen : (vlqDigits (2 * v.natAbs + (if v < 0 then 1 else 0))).length ≤ 64 := by
      have h32 : (32 : Nat) ^ 7 = 34359738368 := by norm_num
      have h7 := vlqDigits_length_le 7 (2 * v.natAbs + (if v < 0 then 1 else 0)) (by omega)
      omega
    rw [hA0, harg, hB]
    rw [encodeVlqLoop_spec 64 _ [] hm (by omega) hlen]
    simp

theorem vlqTable_base64' (d : Nat) (hd : d < 64) :
    vlqTable (BASE64_CHARS.getD d 'A').toNat = d ∧
      (BASE64_CHARS.getD d 'A').toNat ≤ 127 :=
  vlqTable_base64 ⟨d, hd⟩

/-- Unfolding of `decodeGroup` on a non-empty input (the `let`s of the
source zeta-reduced). -/
theorem decodeGroup_cons (c : Char) (rest : List Char) (shift : Nat) (vlq : Int) :
    decodeGroup (c :: rest) shift vlq =
      if 127 < c.toNat then .error "Invalid mapping character"
      else if vlqTable c.toNat = 255 then .error "Invalid mapping character"
      else if vlqTable c.toNat &&& 32 = 0 then
        .ok (jsOr vlq (jsShl (Int.ofNat (vlqTable c.toNat &&& 31)) shift), rest)
      else decodeGroup rest (shift + 5)
        (jsOr vlq (jsShl (Int.ofNat (vlqTable c.toNat &&& 31)) shift)) := rfl

/-- Decoding the chunk characters of a positive value inverts the encoding:
the group loop accumulates `vlq + x * 2^shift` and stops exactly at the end
of the chunk list. -/
theorem decodeGroup_spec (x : Nat) : 0 < x → ∀ (shift : Nat) (vlq : Int) (rest : List Char),
    0 ≤ vlq → vlq < 2 ^ shift → vlq + (x : Int) * 2 ^ shift < 2 ^ 31 →
    decodeGroup (vlqChunkChars (vlqDigits x) ++ rest) shift vlq =
      .ok (vlq + (x : Int) * 2 ^ shift, rest) := by
  induction x using Nat.strong_induction_on with
  | _ x ih =>
    intro hx shift vlq rest hvlq0 hvlqs hcomb
    have hxpow : ((x : Nat) : Int) * 2 ^ shift < 2 ^ 31 := by
      have : (0 : Int) ≤ vlq := hvlq0
      omega
    have hshift31 : shift < 31 := by
      by_contra hc
      have h1 : (2 : Int) ^ 31 ≤ 2 ^ shift := pow_le_pow_right₀ (by norm_num) (by omega)
      have h2 : (2 : Int) ^ shift ≤ ((x : Nat) : Int) * 2 ^ shift := by
        have hx1 : (1 : Int) ≤ ((x : Nat) : Int) := by exact_mod_cast hx
        nlinarith [pow_pos (show (0:Int) < 2 by norm_num) shift]
      omega
    have hshift32 : shift < 32 := by omega
    rw [vlqDigits_of_pos hx.ne']
    by_cases h32 : x / 32 = 0
    · -- single (final) chunk
      have hxlt : x < 32 := by omega
      have hxmod : x % 32 = x := Nat.mod_eq_of_lt hxlt
      obtain ⟨htab, hcode⟩ := vlqTable_base64' x (by omega)
      rw [h32, vlqDigits_zero, hxmod]
      show decodeGroup (BASE64_CHARS.getD x 'A' :: rest) shift vlq = _
      rw [decodeGroup_cons]
      rw [if_neg (by omega)]
      rw [htab]
      rw [if_neg (by omega)]
      rw [if_pos (nat_and_32_of_lt hxlt)]
      rw [nat_and_31, hxmod, Int.ofNat_eq_natCast]
      rw [jsShl_of_range shift (by positivity) hshift32 hxpow]
      rw [jsOr_mul_pow_add vlq x shift hvlq0 hvlqs hcomb]
    · -- continuation chunk followed by the chunks of `x / 32`
      have hmod32 : x % 32 < 32 := Nat.mod_lt _ (by norm_num)
      obtain ⟨htab, hcode⟩ := vlqTable_base64' (x % 32 + 32) (by omega)
      have hds : vlqDigits (x / 32) ≠ [] := by
        rw [vlqDigits_of_pos h32]
        simp
      have hchunk : vlqChunkChars (x % 32 :: vlqDigits (x / 32)) =
          BASE64_CHARS.getD (x % 32 + 32) 'A' :: vlqChunkChars (vlqDigits (x / 32)) := by
        rcases hl : vlqDigits (x / 32) with _ | ⟨d, ds⟩
        · exact absurd hl hds
        · rfl
      rw [hchunk]
      show decodeGroup (BASE64_CHARS.getD (x % 32 + 32) 'A' ::
        (vlqChunkChars (vlqDigits (x / 32)) ++ rest)) shift vlq = _
      rw [decodeGroup_cons]
      rw [if_neg (by omega)]
      rw [htab]
      rw [if_neg (by omega)]
      rw [if_neg (by rw [nat_add32_and_32 hmod32]; omega)]
      rw [nat_and_31, Nat.add_mod_right, Nat.mod_mod_of_dvd x (dvd_refl 32),
        Int.ofNat_eq_natCast]
      have hmodpow : ((x % 32 : Nat) : Int) * 2 ^ shift < 2 ^ 31 := by
        have h1 : ((x % 32 : Nat) : Int) ≤ ((x : Nat) : Int) := by
          exact_mod_cast Nat.mod_le x 32
        have h2 : (0 : Int) < 2 ^ shift := by positivity
        nlinarith
      have hcombmod : vlq + ((x % 32 : Nat) : Int) * 2 ^ shift < 2 ^ 31 := by
        have h1 : ((x % 32 : Nat) : Int) ≤ ((x : Nat) : Int) := by
          exact_mod_cast Nat.mod_le x 32
        have h2 : (0 : Int) < 2 ^ shift := by positivity
        nlinarith
      rw [jsShl_of_range shift (by positivity) hshift32 hmodpow]
      rw [jsOr_mul_pow_add vlq (x % 32) shift hvlq0 hvlqs hcombmod]
      have hsplit : ((x : Nat) : Int) = 32 * ((x / 32 : Nat) : Int) + ((x % 32 : Nat) : Int) := by
        push_cast
        omega
      have hpow5 : (2 : Int) ^ (shift + 5) = 2 ^ shift * 32 := by
        rw [pow_add]
        norm_num
    -- the recursive call on `x / 32`
      have hrec := ih (x / 32) (Nat.div_lt_self hx (by norm_num)) (by omega) (shift + 5)
        (vlq + ((x % 32 : Nat) : Int) * 2 ^ shift)
        rest
        (by positivity)
        (by
          rw [hpow5]
          have h2 : (0 : Int) < 2 ^ shift := by positivity
          have h3 : ((x % 32 : Nat) : Int) ≤ 31 := by exact_mod_cast Nat.le_of_lt_succ hmod32
          nlinarith)
        (by
          rw [hpow5]
          have heq : vlq + ((x % 32 : Nat) : Int) * 2 ^ shift +
              ((x / 32 : Nat) : Int) * (2 ^ shift * 32) = vlq + ((x : Nat) : Int) * 2 ^ shift := by
            rw [hsplit]
            ring
          omega)
      rw [hrec]
      congr 2
      rw [hpow5, hsplit]
      ring

theorem vlqChunkChars_cons_ne_nil (d : Nat) (ds : List Nat) :
    vlqChunkChars (d :: ds) ≠ [] := by
  cases ds <;> simp [vlqChunkChars]

theorem vlqEncChars_ne_nil (v : Int) : vlqEncChars v ≠ [] := by
  unfold vlqEncChars
  by_cases h : 2 * v.natAbs + (if v < 0 then 1 else 0) = 0
  · simp [h]
  · rw [if_neg h]
    rw [vlqDigits_of_pos h]
    exact vlqChunkChars_cons_ne_nil _ _

/-- Unfolding of the outer decode scan on a non-empty input. -/
theorem decodeVLQGo_cons (fuel : Nat) (c : Char) (rest : List Char) (acc : List Int) :
    decodeVLQGo (fuel + 1) (c :: rest) acc =
      match decodeGroup (c :: rest) 0 0 with
      | .error e => .error e
      | .ok (vlq, rest') =>
        decodeVLQGo fuel rest'
          (acc ++ [if jsAndMask vlq 1 = 1 then -(jsShr vlq 1) else jsShr vlq 1]) := rfl

theorem decodeVLQGo_cons_ok (fuel : Nat) (c : Char) (rest : List Char) (acc : List Int)
    (vlq : Int) (rest' : List Char) (h : decodeGroup (c :: rest) 0 0 = .ok (vlq, rest')) :
    decodeVLQGo (fuel + 1) (c :: rest) acc =
      decodeVLQGo fuel rest'
        (acc ++ [if jsAndMask vlq 1 = 1 then -(jsShr vlq 1) else jsShr vlq 1]) := by
  rw [decodeVLQGo_cons, h]

theorem decodeVLQGo_cons_err (fuel : Nat) (c : Char) (rest : List Char) (acc : List Int)
    (e : String) (h : decodeGroup (c :: rest) 0 0 = .error e) :
    decodeVLQGo (fuel + 1) (c :: rest) acc = .error e := by
  rw [decodeVLQGo_cons, h]

/-- Decoding consumes one encoded value from the front of the input. -/
theorem decodeVLQGo_enc (v : Int) (h : v.natAbs < 2 ^ 30) (fuel : Nat)
    (rest : List Char) (acc : List Int) :
    decodeVLQGo (fuel + 1) (vlqEncChars v ++ rest) acc = decodeVLQGo fuel rest (acc ++ [v]) := by
  by_cases hv : v = 0
  · subst hv
    show decodeVLQGo (fuel + 1) ('A' :: rest) acc = _
    have hgrp : decodeGroup ('A' :: rest) 0 0 = .ok (0, rest) := by
      rw [decodeGroup_cons]
      rw [show vlqTable 'A'.toNat = 0 from by decide]
      rw [if_neg (by decide), if_neg (by decide), if_pos (by decide)]
      rw [show jsOr 0 (jsShl (Int.ofNat (0 &&& 31)) 0) = 0 from by decide]
    rw [decodeVLQGo_cons_ok fuel _ rest acc 0 rest hgrp]
    rw [show jsAndMask 0 1 = 0 from by decide, show jsShr 0 1 = 0 from by decide]
    norm_num
  · set m : Nat := 2 * v.natAbs + (if v < 0 then 1 else 0) with hm
    have hif : (if v < 0 then (1 : Nat) else 0) ≤ 1 := by split <;> norm_num
    have hmpos : 0 < m := by
      have : v.natAbs ≠ 0 := Int.natAbs_ne_zero.mpr hv
      omega
    have hm31 : (m : Int) < 2 ^ 31 := by
      have : m < 2 ^ 31 := by omega
      exact_mod_cast this
    have hencm : vlqEncChars v = vlqChunkChars (vlqDigits m) := by
      show (if m = 0 then ['A'] else vlqChunkChars (vlqDigits m)) = _
      rw [if_neg (by omega)]
    have hgrp := decodeGroup_spec m hmpos 0 0 rest (le_refl 0) (by norm_num)
      (by norm_num; omega)
    have hgrp' : decodeGroup (vlqChunkChars (vlqDigits m) ++ rest) 0 0 =
        .ok ((m : Int), rest) := by
      rw [hgrp]
      norm_num
    rw [hencm]
    rcases hl : vlqChunkChars (vlqDigits m) with _ | ⟨c, tl⟩
    · exact absurd hl (by rw [vlqDigits_of_pos (by omega)]; exact vlqChunkChars_cons_ne_nil _ _)
    · rw [List.cons_append]
      rw [decodeVLQGo_cons_ok fuel c (tl ++ rest) acc (m : Int) rest
        (by rw [← List.cons_append, ← hl]; exact hgrp')]
      have hmod : jsAndMask ((m : Nat) : Int) 1 = ((m % 2 : Nat) : Int) := by
        rw [jsAndMask_of_range 1 (Int.natCast_nonneg m) hm31]
        omega
      have hdiv : jsShr ((m : Nat) : Int) 1 = ((m / 2 : Nat) : Int) := by
        rw [jsShr_of_range 1 (Int.natCast_nonneg m) hm31]
        rw [show (2 : Int) ^ (1 % 32) = 2 from by norm_num]
        omega
      have habs : m / 2 = v.natAbs := by
        rw [hm]
        omega
      have hval : (if jsAndMask ((m : Nat) : Int) 1 = 1
          then -(jsShr ((m : Nat) : Int) 1) else jsShr ((m : Nat) : Int) 1) = v := by
        rw [hmod, hdiv, habs]
        by_cases hneg : v < 0
        · have hs : m % 2 = 1 := by rw [hm, if_pos hneg]; omega
          rw [hs]
          rw [if_pos (by norm_num)]
          have hnv : ((v.natAbs : Nat) : Int) = -v := Int.ofNat_natAbs_of_nonpos (by omega)
          rw [hnv]
          ring
        · have hs : m % 2 = 0 := by rw [hm, if_neg hneg]; omega
          rw [hs]
          rw [if_neg (by norm_num)]
          exact Int.natAbs_of_nonneg (by omega)
      rw [hval]

/-- Decoding the full encoding of a single value yields exactly that value. -/
theorem decodeVLQ_enc_single (v : Int) (h : v.natAbs < 2 ^ 30) :
    decodeVLQ (vlqEncChars v) = .ok [v] := by
  unfold decodeVLQ
  rcases hl : vlqEncChars v with _ | ⟨c, tl⟩
  · exact absurd hl (vlqEncChars_ne_nil v)
  · have hlen : (vlqEncChars v).length = tl.length + 1 := by rw [hl]; simp
    conv_lhs => rw [← hl, hlen]
    rw [show vlqEncChars v = vlqEncChars v ++ [] from by simp]
    rw [decodeVLQGo_enc v h tl.length [] []]
    simp [decodeVLQGo]

/-! ## Claim C2 -/

/-- Claim C2 (counterexample): the claim asserts the VLQ round trip for every
`v` in `[-2^31, 2^31)`, but at `v = -2^31` the encoder wraps
`Math.abs(v) << 1` to 0 (int32 overflow), emits `"B"`, and decoding yields
`[0]`, not `[-2^31]`. -/
theorem vlq_round_trip_cex :
    encodeVlq (-(2 ^ 31)) = some ['B'] ∧ decodeVLQ ['B'] = .ok [0] ∧
      (0 : Int) ≠ -(2 ^ 31) :=
  ⟨by decide, by decide, by decide⟩

/-- Claim C2 (amended): for every integer `v` with `-2^30 < v < 2^30`,
`decodeVLQ (encodeVlq v)` is the single-element segment `[v]`.  (Outside
this range `Math.abs(v) << 1` overflows int32: the encode loop either never
terminates — its negative state stays negative under `>> 5` — or, at
`-2^31`, wraps to the encoding of 0.) -/
theorem vlq_round_trip (v : Int) (h1 : -(2 ^ 30) < v) (h2 : v < 2 ^ 30) :
    ∃ s, encodeVlq v = some s ∧ decodeVLQ s = Except.ok [v] := by
  have habs : v.natAbs < 2 ^ 30 := by omega
  exact ⟨vlqEncChars v, encodeVlq_spec v habs, decodeVLQ_enc_single v habs⟩

/-- Witness for `vlq_round_trip` at `v = 12345`. -/
theorem vlq_round_trip_witness :
    -(2 ^ 30) < (12345 : Int) ∧ (12345 : Int) < 2 ^ 30 ∧
      ∃ s, encodeVlq 12345 = some s ∧ decodeVLQ s = Except.ok [12345] :=
  ⟨by decide, by decide, vlq_round_trip 12345 (by decide) (by decide)⟩

/-! ## Error behaviour of the VLQ decoder (claim C9 machinery) -/

/-- A successful group consumes a non-empty prefix of accepted characters. -/
theorem decodeGroup_consumed : ∀ (cs : List Char) (shift : Nat) (vlq : Int)
    (x : Int) (rest : List Char), decodeGroup cs shift vlq = .ok (x, rest) →
    ∃ pre, cs = pre ++ rest ∧ (∀ c ∈ pre, ValidVlqChar c) ∧ pre ≠ [] := by
  intro cs
  induction cs with
  | nil => intro shift vlq x rest h; cases h
  | cons c cs' ih =>
    intro shift vlq x rest h
    rw [decodeGroup_cons] at h
    by_cases h127 : 127 < c.toNat
    · rw [if_pos h127] at h; cases h
    · rw [if_neg h127] at h
      by_cases htab : vlqTable c.toNat = 255
      · rw [if_pos htab] at h; cases h
      · rw [if_neg htab] at h
        by_cases hcont : vlqTable c.toNat &&& 32 = 0
        · rw [if_pos hcont] at h
          simp only [Except.ok.injEq, Prod.mk.injEq] at h
          obtain ⟨-, rfl⟩ := h
          exact ⟨[c], by simp, by intro a ha; simp at ha; subst ha; exact ⟨by omega, htab⟩,
            by simp⟩
        · rw [if_neg hcont] at h
          obtain ⟨pre, heq, hvalid, hne⟩ := ih _ _ _ _ h
          exact ⟨c :: pre, by rw [heq]; simp,
            by
              intro a ha
              rcases List.mem_cons.mp ha with rfl | ha'
              · exact ⟨by omega, htab⟩
              · exact hvalid a ha',
            by simp⟩

/-- A failed group fails either on an invalid character, or on an
unterminated continuation after consuming only accepted characters. -/
theorem decodeGroup_err : ∀ (cs : List Char) (shift : Nat) (vlq : Int) (e : String),
    decodeGroup cs shift vlq = .error e →
    e = "Invalid mapping character" ∨
      (e = "Unexpected early end of mapping data" ∧ ∀ c ∈ cs, ValidVlqChar c) := by
  intro cs
  induction cs with
  | nil =>
    intro shift vlq e h
    cases h
    exact Or.inr ⟨rfl, by intro c hc; cases hc⟩
  | cons c cs' ih =>
    intro shift vlq e h
    rw [decodeGroup_cons] at h
    by_cases h127 : 127 < c.toNat
    · rw [if_pos h127] at h; cases h; exact Or.inl rfl
    · rw [if_neg h127] at h
      by_cases htab : vlqTable c.toNat = 255
      · rw [if_pos htab] at h; cases h; exact Or.inl rfl
      · rw [if_neg htab] at h
        by_cases hcont : vlqTable c.toNat &&& 32 = 0
        · rw [if_pos hcont] at h; cases h
        · rw [if_neg hcont] at h
          rcases ih _ _ _ h with h1 | ⟨h1, h2⟩
          · exact Or.inl h1
          · refine Or.inr ⟨h1, ?_⟩
            intro a ha
            rcases List.mem_cons.mp ha with rfl | ha'
            · exact ⟨by omega, htab⟩
            · exact h2 a ha'

/-- Any invalid character anywhere in the input makes `decodeVLQ` throw
`Invalid mapping character` (every character is examined as groups are
consumed in order). -/
theorem decodeVLQGo_invalid : ∀ (fuel : Nat) (cs : List Char) (acc : List Int),
    cs.length ≤ fuel → (∃ c ∈ cs, ¬ ValidVlqChar c) →
    decodeVLQGo fuel cs acc = .error "Invalid mapping character" := by
  intro fuel
  induction fuel with
  | zero =>
    intro cs acc hlen hbad
    obtain ⟨c, hc, _⟩ := hbad
    rcases cs with _ | ⟨c', cs'⟩
    · cases hc
    · simp at hlen
  | succ f ih =>
    intro cs acc hlen hbad
    rcases cs with _ | ⟨c, cs'⟩
    · obtain ⟨c, hc, _⟩ := hbad; cases hc
    · rcases hgrp : decodeGroup (c :: cs') 0 0 with e | ⟨vlq, rest⟩
      · rcases decodeGroup_err _ _ _ _ hgrp with h1 | ⟨_, h2⟩
        · rw [decodeVLQGo_cons_err f c cs' acc _ hgrp, h1]
        · obtain ⟨a, ha, hanv⟩ := hbad
          exact absurd (h2 a ha) hanv
      · obtain ⟨pre, heq, hvalid, hne⟩ := decodeGroup_consumed _ _ _ _ _ hgrp
        rw [decodeVLQGo_cons_ok f c cs' acc vlq rest hgrp]
        apply ih
        · have hlens := congrArg List.length heq
          simp at hlens
          have hlen' : cs'.length + 1 ≤ f + 1 := by simpa using hlen
          have hpre : 1 ≤ pre.length := by
            rcases pre with _ | _
            · exact absurd rfl hne
            · simp
          omega
        · obtain ⟨a, ha, hanv⟩ := hbad
          rw [heq] at ha
          rcases List.mem_append.mp ha with hpre | hrest
          · exact absurd (hvalid a hpre) hanv
          · exact ⟨a, hrest, hanv⟩

/-- On all-valid input whose last character has the continuation bit set,
a group either runs off the end of the input (the unterminated-continuation
error) or stops early, leaving a non-empty rest with the same last
character. -/
theorem decodeGroup_last_cont : ∀ (cs : List Char) (shift : Nat) (vlq : Int),
    (∀ c ∈ cs, ValidVlqChar c) →
    (∃ c, cs.getLast? = some c ∧ vlqTable c.toNat &&& 32 ≠ 0) →
    decodeGroup cs shift vlq = .error "Unexpected early end of mapping data" ∨
      ∃ x rest, decodeGroup cs shift vlq = .ok (x, rest) ∧ rest ≠ [] ∧
        rest.getLast? = cs.getLast? := by
  intro cs
  induction cs with
  | nil =>
    intro shift vlq _ hlast
    obtain ⟨c, hc, _⟩ := hlast
    cases hc
  | cons c cs' ih =>
    intro shift vlq hvalid hlast
    have hv : ValidVlqChar c := hvalid c (by simp)
    rcases cs' with _ | ⟨c2, cs''⟩
    · obtain ⟨c0, hc0, hcont0⟩ := hlast
      simp only [List.getLast?_singleton, Option.some.injEq] at hc0
      subst hc0
      left
      rw [decodeGroup_cons, if_neg (by have := hv.1; omega), if_neg hv.2, if_neg hcont0]
      rfl
    · have hlast' : (c2 :: cs'').getLast? = (c :: c2 :: cs'').getLast? := by
        rw [List.getLast?_cons_cons]
      by_cases hcont : vlqTable c.toNat &&& 32 = 0
      · right
        refine ⟨jsOr vlq (jsShl (Int.ofNat (vlqTable c.toNat &&& 31)) shift), c2 :: cs'', ?_,
          by simp, hlast'⟩
        rw [decodeGroup_cons, if_neg (by have := hv.1; omega), if_neg hv.2, if_pos hcont]
      · have hrec := ih (shift + 5)
          (jsOr vlq (jsShl (Int.ofNat (vlqTable c.toNat &&& 31)) shift))
          (by intro a ha; exact hvalid a (List.mem_cons_of_mem c ha))
          (by obtain ⟨c0, hc0, hcont0⟩ := hlast; exact ⟨c0, by rw [hlast']; exact hc0, hcont0⟩)
        have hstep : decodeGroup (c :: c2 :: cs'') shift vlq =
            decodeGroup (c2 :: cs'') (shift + 5)
              (jsOr vlq (jsShl (Int.ofNat (vlqTable c.toNat &&& 31)) shift)) := by
          rw [decodeGroup_cons, if_neg (by have := hv.1; omega), if_neg hv.2, if_neg hcont]
        rcases hrec with h1 | ⟨x, rest, h1, h2, h3⟩
        · left
          rw [hstep, h1]
        · right
          exact ⟨x, rest, by rw [hstep, h1], h2, by rw [h3, hlast']⟩

/-- An all-valid input whose last character carries the continuation bit is
an unterminated continuation: `decodeVLQ` throws the early-end error. -/
theorem decodeVLQGo_unterminated : ∀ (fuel : Nat) (cs : List Char) (acc : List Int),
    cs.length ≤ fuel → (∀ c ∈ cs, ValidVlqChar c) →
    (∃ c, cs.getLast? = some c ∧ vlqTable c.toNat &&& 32 ≠ 0) →
    decodeVLQGo fuel cs acc = .error "Unexpected early end of mapping data" := by
  intro fuel
  induction fuel with
  | zero =>
    intro cs acc hlen hvalid hlast
    rcases cs with _ | ⟨c, cs'⟩
    · obtain ⟨c0, hc0, _⟩ := hlast
      cases hc0
    · simp at hlen
  | succ f ih =>
    intro cs acc hlen hvalid hlast
    rcases cs with _ | ⟨c, cs'⟩
    · obtain ⟨c0, hc0, _⟩ := hlast
      cases hc0
    · rcases decodeGroup_last_cont (c :: cs') 0 0 hvalid hlast with h1 | ⟨x, rest, h1, h2, h3⟩
      · exact decodeVLQGo_cons_err f c cs' acc _ h1
      · rw [decodeVLQGo_cons_ok f c cs' acc x rest h1]
        obtain ⟨pre, heq, _, hne⟩ := decodeGroup_consumed _ _ _ _ _ h1
        apply ih
        · have hlens := congrArg List.length heq
          simp at hlens
          have hlen' : cs'.length + 1 ≤ f + 1 := by simpa using hlen
          have hpre : 1 ≤ pre.length := by
            rcases pre with _ | _
            · exact absurd rfl hne
            · simp
          omega
        · intro a ha
          exact hvalid a (by rw [heq]; exact List.mem_append_right pre ha)
        · obtain ⟨c0, hc0, hcont0⟩ := hlast
          exact ⟨c0, by rw [h3]; exact hc0, hcont0⟩

/-- A resolved entry produced by `parseEntry` has arity 1, 4 or 5: any other
decoded arity throws `Unknown source map entry`. -/
theorem parseEntry_arity (sl sc : Int) (entry : List Char) (res : List Int)
    (sl' sc' : Int) (h : parseEntry sl sc entry = .ok (res, sl', sc')) :
    res.length = 1 ∨ res.length = 4 ∨ res.length = 5 := by
  unfold parseEntry at h
  rcases hdec : decodeVLQ entry with e | result
  · rw [hdec] at h
    simp only [] at h
    cases h
  · rw [hdec] at h
    simp only [] at h
    by_cases h1 : result.length = 1
    · rw [if_pos h1] at h
      simp only [Except.ok.injEq, Prod.mk.injEq] at h
      obtain ⟨rfl, -, -⟩ := h
      exact Or.inl h1
    · rw [if_neg h1] at h
      by_cases h45 : result.length = 4 ∨ result.length = 5
      · rw [if_pos h45] at h
        simp only [Except.ok.injEq, Prod.mk.injEq] at h
        obtain ⟨rfl, -, -⟩ := h
        simp only [List.length_set]
        exact Or.inr h45
      · rw [if_neg h45] at h
        cases h

/-- Arity of every entry of a successfully parsed line. -/
theorem parseLineEntries_arity : ∀ (entries : List (List Char)) (sl sc : Int)
    (line : SourceMapLine) (sl' sc' : Int),
    parseLineEntries sl sc entries = .ok (line, sl', sc') →
    ∀ e ∈ line, e.length = 1 ∨ e.length = 4 ∨ e.length = 5 := by
  intro entries
  induction entries with
  | nil =>
    intro sl sc line sl' sc' h e he
    unfold parseLineEntries at h
    simp only [Except.ok.injEq, Prod.mk.injEq] at h
    obtain ⟨rfl, -, -⟩ := h
    cases he
  | cons entry entries ih =>
    intro sl sc line sl' sc' h e he
    unfold parseLineEntries at h
    rcases h1 : parseEntry sl sc entry with e1 | ⟨res, sl1, sc1⟩
    · rw [h1] at h
      simp only [] at h
      cases h
    · rw [h1] at h
      simp only [] at h
      rcases h2 : parseLineEntries sl1 sc1 entries with e2 | ⟨line2, sl2, sc2⟩
      · rw [h2] at h
        simp only [] at h
        cases h
      · rw [h2] at h
        simp only [Except.ok.injEq, Prod.mk.injEq] at h
        obtain ⟨rfl, -, -⟩ := h
        rcases List.mem_cons.mp he with rfl | he'
        · exact parseEntry_arity sl sc entry e sl1 sc1 h1
        · exact ih sl1 sc1 line2 sl2 sc2 h2 e he'

/-- Arity of every entry of every line of a successfully parsed mappings
string. -/
theorem parseMappingLines_arity : ∀ (lineStrs : List (List Char)) (sl sc : Int)
    (lines : SourceMapLines) (sl' sc' : Int),
    parseMappingLines sl sc lineStrs = .ok (lines, sl', sc') →
    ∀ l ∈ lines, ∀ e ∈ l, e.length = 1 ∨ e.length = 4 ∨ e.length = 5 := by
  intro lineStrs
  induction lineStrs with
  | nil =>
    intro sl sc lines sl' sc' h l hl e he
    unfold parseMappingLines at h
    simp only [Except.ok.injEq, Prod.mk.injEq] at h
    obtain ⟨rfl, -, -⟩ := h
    cases hl
  | cons lineStr lineStrs ih =>
    intro sl sc lines sl' sc' h l hl e he
    unfold parseMappingLines at h
    by_cases hempty : lineStr.length = 0
    · rw [if_pos hempty] at h
      simp only [] at h
      rcases h2 : parseMappingLines sl sc lineStrs with e2 | ⟨lines2, sl2, sc2⟩
      · rw [h2] at h
        simp only [] at h
        cases h
      · rw [h2] at h
        simp only [Except.ok.injEq, Prod.mk.injEq] at h
        obtain ⟨rfl, -, -⟩ := h
        rcases List.mem_cons.mp hl with rfl | hl'
        · cases he
        · exact ih sl sc lines2 sl2 sc2 h2 l hl' e he
    · rw [if_neg hempty] at h
      rcases h1 : parseLineEntries sl sc (splitOnChar ',' lineStr) with e1 | ⟨line1, sl1, sc1⟩
      · rw [h1] at h
        simp only [] at h
        cases h
      · rw [h1] at h
        simp only [] at h
        rcases h2 : parseMappingLines sl1 sc1 lineStrs with e2 | ⟨lines2, sl2, sc2⟩
        · rw [h2] at h
          simp only [] at h
          cases h
        · rw [h2] at h
          simp only [Except.ok.injEq, Prod.mk.injEq] at h
          obtain ⟨rfl, -, -⟩ := h
          rcases List.mem_cons.mp hl with rfl | hl'
          · exact parseLineEntries_arity _ sl sc l sl1 sc1 h1 e he
          · exact ih sl1 sc1 lines2 sl2 sc2 h2 l hl' e he

/-- Unfolding of `renderLineEntries` on a non-empty line. -/
theorem renderLineEntries_cons (L C : Int) (e : ResolvedSourceMapEntry) (es : SourceMapLine) :
    renderLineEntries L C (e :: es) =
      match renderEntry L C e with
      | none => none
      | some (s, l, c) =>
        match renderLineEntries l c es with
        | none => none
        | some (ss, l', c') => some (s :: ss, l', c') := rfl

/-- Unfolding of `parseLineEntries` on a non-empty entry list. -/
theorem parseLineEntries_cons (L C : Int) (e : List Char) (es : List (List Char)) :
    parseLineEntries L C (e :: es) =
      match parseEntry L C e with
      | .error e' => .error e'
      | .ok (res, sl, sc) =>
        match parseLineEntries sl sc es with
        | .error e' => .error e'
        | .ok (line, sl', sc') => .ok (res :: line, sl', sc') := rfl

/-- Unfolding of `renderAllLines` on a non-empty line list. -/
theorem renderAllLines_cons (L C : Int) (line : SourceMapLine) (lines : SourceMapLines) :
    renderAllLines L C (line :: lines) =
      match renderLineEntries L C line with
      | none => none
      | some (ss, l, c) =>
        match renderAllLines l c lines with
        | none => none
        | some (rendered, l', c') => some (joinWithChar ',' ss :: rendered, l', c') := rfl

/-- Unfolding of `parseMappingLines` on a non-empty line-string list. -/
theorem parseMappingLines_cons (sl sc : Int) (lineStr : List Char)
    (lineStrs : List (List Char)) :
    parseMappingLines sl sc (lineStr :: lineStrs) =
      match (if lineStr.length = 0 then Except.ok ([], sl, sc)
             else parseLineEntries sl sc (splitOnChar ',' lineStr)) with
      | .error e => .error e
      | .ok (line, sl', sc') =>
        match parseMappingLines sl' sc' lineStrs with
        | .error e => .error e
        | .ok (lines, sl'', sc'') => .ok (line :: lines, sl'', sc'') := rfl

/-- The `throw` of `parseWithLines`' segment processing: a segment that
decodes successfully to an arity other than 1, 4 or 5 makes `parseEntry`
throw `Unknown source map entry`. -/
theorem parseEntry_bad_arity (sl sc : Int) (entry : List Char) (result : List Int)
    (hdec : decodeVLQ entry = .ok result) (h1 : result.length ≠ 1)
    (h4 : result.length ≠ 4) (h5 : result.length ≠ 5) :
    parseEntry sl sc entry = .error "Unknown source map entry" := by
  unfold parseEntry
  rw [hdec]
  simp only []
  rw [if_neg h1]
  rw [if_neg (by
    intro hc
    rcases hc with h | h
    · exact h4 h
    · exact h5 h)]

/-- A line containing a bad-arity segment never parses: `parseLineEntries`
throws (the bad segment's own error if it is reached first, an earlier
entry's error otherwise). -/
theorem parseLineEntries_bad : ∀ (entries : List (List Char)) (sl sc : Int),
    (∃ entry ∈ entries, ∃ result, decodeVLQ entry = .ok result ∧
      result.length ≠ 1 ∧ result.length ≠ 4 ∧ result.length ≠ 5) →
    ∃ e, parseLineEntries sl sc entries = .error e := by
  intro entries
  induction entries with
  | nil =>
    intro sl sc h
    obtain ⟨entry, hmem, -⟩ := h
    simp at hmem
  | cons entry es ih =>
    intro sl sc h
    rcases hpe : parseEntry sl sc entry with e0 | ⟨res, sl', sc'⟩
    · exact ⟨e0, by rw [parseLineEntries_cons, hpe]⟩
    · obtain ⟨entry', hmem, result, hdec, h1, h4, h5⟩ := h
      rcases List.mem_cons.mp hmem with rfl | hmem'
      · rw [parseEntry_bad_arity sl sc entry' result hdec h1 h4 h5] at hpe
        cases hpe
      · obtain ⟨e1, he1⟩ := ih sl' sc' ⟨entry', hmem', result, hdec, h1, h4, h5⟩
        refine ⟨e1, ?_⟩
        rw [parseLineEntries_cons, hpe]
        simp only []
        rw [he1]

/-- A mappings string containing a reached bad-arity segment never parses:
`parseMappingLines` throws. -/
theorem parseMappingLines_bad : ∀ (lineStrs : List (List Char)) (sl sc : Int),
    (∃ lineStr ∈ lineStrs, lineStr ≠ [] ∧ ∃ entry ∈ splitOnChar ',' lineStr,
      ∃ result, decodeVLQ entry = .ok result ∧
        result.length ≠ 1 ∧ result.length ≠ 4 ∧ result.length ≠ 5) →
    ∃ e, parseMappingLines sl sc lineStrs = .error e := by
  intro lineStrs
  induction lineStrs with
  | nil =>
    intro sl sc h
    obtain ⟨l, hmem, -⟩ := h
    simp at hmem
  | cons l ls ih =>
    intro sl sc h
    rcases hstep : (if l.length = 0 then (Except.ok ([], sl, sc) :
          Except String (SourceMapLine × Int × Int))
        else parseLineEntries sl sc (splitOnChar ',' l)) with e0 | ⟨line, sl', sc'⟩
    · exact ⟨e0, by rw [parseMappingLines_cons, hstep]⟩
    · obtain ⟨l', hmem, hne, hbad⟩ := h
      rcases List.mem_cons.mp hmem with rfl | hmem'
      · have hlen : l'.length ≠ 0 := fun hc => hne (List.length_eq_zero.mp hc)
        rw [if_neg hlen] at hstep
        obtain ⟨e1, he1⟩ := parseLineEntries_bad (splitOnChar ',' l') sl sc hbad
        rw [he1] at hstep
        cases hstep
      · obtain ⟨e1, he1⟩ := ih sl' sc' ⟨l', hmem', hne, hbad⟩
        refine ⟨e1, ?_⟩
        rw [parseMappingLines_cons, hstep]
        simp only []
        rw [he1]

/-! ## Claim C9 -/

/-- Claim C9: `decodeVLQ` throws (produces no result) on a character with
code outside `0x00-0x7F` or outside the base64 alphabet anywhere in its
input, and on an unterminated continuation (all characters accepted but the
last one carrying the continuation bit); the mappings processing of
`parseWithLines` throws a fatal `Unknown source map entry` error on any
segment that decodes to an arity other than 1, 4, 5, so a mappings string
containing such a segment yields an error and no result at all, and a
successful parse contains only segments of arity 1, 4 or 5 — malformed
input is never silently corrected into a segment. -/
theorem vlq_decode_parse_malformed_rejected :
    (∀ cs : List Char, (∃ c ∈ cs, ¬ ValidVlqChar c) →
      decodeVLQ cs = .error "Invalid mapping character")
    ∧ (∀ cs : List Char, (∀ c ∈ cs, ValidVlqChar c) →
      (∃ c, cs.getLast? = some c ∧ vlqTable c.toNat &&& 32 ≠ 0) →
      decodeVLQ cs = .error "Unexpected early end of mapping data")
    ∧ (∀ (sl sc : Int) (entry : List Char) (result : List Int),
      decodeVLQ entry = .ok result →
      result.length ≠ 1 → result.length ≠ 4 → result.length ≠ 5 →
      parseEntry sl sc entry = .error "Unknown source map entry")
    ∧ (∀ m : List Char,
      (∃ lineStr ∈ splitOnChar ';' m, lineStr ≠ [] ∧
        ∃ entry ∈ splitOnChar ',' lineStr, ∃ result,
          decodeVLQ entry = .ok result ∧
          result.length ≠ 1 ∧ result.length ≠ 4 ∧ result.length ≠ 5) →
      ∃ e, parseMappings m = .error e)
    ∧ (∀ (m : List Char) (lines : SourceMapLines), parseMappings m = .ok lines →
      ∀ l ∈ lines, ∀ e ∈ l, e.length = 1 ∨ e.length = 4 ∨ e.length = 5) := by
  refine ⟨?_, ?_, ?_, ?_, ?_⟩
  · intro cs hbad
    exact decodeVLQGo_invalid cs.length cs [] (le_refl _) hbad
  · intro cs hvalid hlast
    exact decodeVLQGo_unterminated cs.length cs [] (le_refl _) hvalid hlast
  · intro sl sc entry result hdec h1 h4 h5
    exact parseEntry_bad_arity sl sc entry result hdec h1 h4 h5
  · intro m hbad
    obtain ⟨e1, he1⟩ := parseMappingLines_bad (splitOnChar ';' m) 0 0 hbad
    refine ⟨e1, ?_⟩
    unfold parseMappings
    rw [he1]
  · intro m lines h l hl e he
    unfold parseMappings at h
    rcases h2 : parseMappingLines 0 0 (splitOnChar ';' m) with e2 | ⟨lines2, sl2, sc2⟩
    · rw [h2] at h
      simp only [] at h
      cases h
    · rw [h2] at h
      simp only [] at h
      cases h
      exact parseMappingLines_arity _ 0 0 _ sl2 sc2 h2 l hl e he

/-- Witness for `vlq_decode_parse_malformed_rejected`: `'~'` is rejected as
an invalid character, a lone `'g'` (continuation bit set) as an unterminated
continuation, the arity-2 segment `"AA"` makes `parseEntry` throw
`Unknown source map entry`, the mappings string `"AA"` parses to an error
and no result, and the parsed segment of `"AAAA"` has arity 4. -/
theorem vlq_decode_parse_malformed_rejected_witness :
    decodeVLQ ['~'] = .error "Invalid mapping character" ∧
    decodeVLQ ['g'] = .error "Unexpected early end of mapping data" ∧
    parseEntry 0 0 ['A', 'A'] = .error "Unknown source map entry" ∧
    (∃ e, parseMappings "AA".toList = .error e) ∧
    (([(0 : Int), 0, 0, 0] : List Int).length = 1 ∨
      ([(0 : Int), 0, 0, 0] : List Int).length = 4 ∨
      ([(0 : Int), 0, 0, 0] : List Int).length = 5) :=
  ⟨vlq_decode_parse_malformed_rejected.1 ['~'] ⟨'~', by decide, by decide⟩,
   vlq_decode_parse_malformed_rejected.2.1 ['g'] (by decide) ⟨'g', by decide, by decide⟩,
   vlq_decode_parse_malformed_rejected.2.2.1 0 0 ['A', 'A'] [0, 0]
     (by decide) (by decide) (by decide) (by decide),
   vlq_decode_parse_malformed_rejected.2.2.2.1 "AA".toList
     ⟨['A', 'A'], by decide, by decide, ['A', 'A'], by decide, [0, 0],
       by decide, by decide, by decide, by decide⟩,
   vlq_decode_parse_malformed_rejected.2.2.2.2 "AAAA".toList [[[0, 0, 0, 0]]] (by decide)
     [[0, 0, 0, 0]] (by decide) [0, 0, 0, 0] (by decide)⟩

/-! ## Claim C4: `remapPosition` machinery -/

/-- Soundness of the scan: a returned mapping is an arity-4 segment of the
scanned list whose accumulated column is the returned position (unless it
was already the incoming tracked mapping). -/
theorem remapScan_sound (character : Int) : ∀ (segs : SourceMapLine) (p : Int)
    (lm : Option ResolvedSourceMapEntry) (lmp : Int) (m : ResolvedSourceMapEntry) (q : Int),
    remapScan character segs p lm lmp = (some m, q) →
    (lm = some m ∧ lmp = q) ∨
      ∃ i, i < segs.length ∧ segs[i]? = some m ∧ m.length = 4 ∧
        q = p + ((segs.take (i + 1)).map (fun s => s.getD 0 0)).sum := by
  intro segs
  induction segs with
  | nil =>
    intro p lm lmp m q h
    unfold remapScan at h
    simp only [Prod.mk.injEq] at h
    exact Or.inl ⟨h.1, h.2⟩
  | cons s rest ih =>
    intro p lm lmp m q h
    unfold remapScan at h
    simp only [] at h
    by_cases hlen : s.length = 4
    · rw [if_pos hlen] at h
      simp only [] at h
      by_cases hbreak : p + s.getD 0 0 ≥ character
      · rw [if_pos hbreak] at h
        simp only [Prod.mk.injEq, Option.some.injEq] at h
        obtain ⟨rfl, rfl⟩ := h
        exact Or.inr ⟨0, by simp, by simp, hlen, by simp⟩
      · rw [if_neg hbreak] at h
        rcases ih (p + s.getD 0 0) (some s) (p + s.getD 0 0) m q h with ⟨h1, h2⟩ | ⟨i, h1, h2, h3, h4⟩
        · simp only [Option.some.injEq] at h1
          subst h1
          refine Or.inr ⟨0, by simp, by simp, hlen, ?_⟩
          simp only [List.take_succ_cons, List.take_zero, List.map_cons, List.map_nil,
            List.sum_cons, List.sum_nil]
          omega
        · refine Or.inr ⟨i + 1, by simpa using h1, by simpa using h2, h3, ?_⟩
          rw [h4]
          simp [List.take_succ_cons]
          ring
    · rw [if_neg hlen] at h
      simp only [] at h
      by_cases hbreak : p + s.getD 0 0 ≥ character
      · rw [if_pos hbreak] at h
        simp only [Prod.mk.injEq] at h
        exact Or.inl ⟨h.1, h.2⟩
      · rw [if_neg hbreak] at h
        rcases ih (p + s.getD 0 0) lm lmp m q h with ⟨h1, h2⟩ | ⟨i, h1, h2, h3, h4⟩
        · exact Or.inl ⟨h1, h2⟩
        · refine Or.inr ⟨i + 1, by simpa using h1, by simpa using h2, h3, ?_⟩
          rw [h4]
          simp [List.take_succ_cons]
          ring

/-! ## Claim C4 -/

/-- Claim C4 (counterexample): the claim says an arity-≥4 (here arity-5,
named) segment whose accumulated column equals the queried column is
returned, but `remapPosition` only tracks segments of length exactly 4: at
line `[[0,0,5,2,0]]` and position `(0,0)` it returns `none`, not `(5,2)`. -/
theorem remapPosition_exact_anchor_cex :
    remapPosition (0, 0) [[[0, 0, 5, 2, 0]]] = none ∧
      (none : Option (Int × Int)) ≠ some (5, 2) :=
  ⟨by decide, by decide⟩

/-- Claim C4 (amended): whenever `remapPosition ((L, C), lines)` returns a
source position, that position is the absolute `(srcLine, srcCol)` of a
segment of arity exactly 4 on line `L` whose accumulated generated column
equals `C` exactly.  Contrapositively, when no arity-4 segment of the line
accumulates to exactly `C` — in particular for positions strictly between
anchors, for positions on purely arity-5 anchors, and on missing or empty
lines — the result is `none`: no approximate or nearest match is ever
returned.  (The claim's "exactly when" direction fails: an arity-5 anchor,
or an arity-4 anchor at column `C` hidden behind an earlier unmapped segment
that already reaches `C`, yields `none`.) -/
theorem remapPosition_sound (lines : SourceMapLines) (L : Nat) (C : Int) (sl sc : Int)
    (h : remapPosition (L, C) lines = some (sl, sc)) :
    ∃ i, i < (lines.getD L []).length ∧
      ∃ seg, (lines.getD L [])[i]? = some seg ∧ seg.length = 4 ∧
        ((((lines.getD L []).take (i + 1)).map (fun s => s.getD 0 0)).sum = C) ∧
        seg.getD 2 0 = sl ∧ seg.getD 3 0 = sc := by
  unfold remapPosition at h
  simp only [] at h
  by_cases hempty : (lines.getD L []).length = 0
  · rw [if_pos hempty] at h
    cases h
  · rw [if_neg hempty] at h
    rcases hscan : remapScan C (lines.getD L []) 0 none 0 with ⟨lm, lmp⟩
    rw [hscan] at h
    simp only [] at h
    by_cases hexact : C - lmp ≠ 0
    · rw [if_pos hexact] at h
      cases h
    · rw [if_neg hexact] at h
      rcases lm with _ | m
      · cases h
      · simp only [Option.some.injEq, Prod.mk.injEq] at h
        obtain ⟨hsl, hsc⟩ := h
        rcases remapScan_sound C (lines.getD L []) 0 none 0 m lmp hscan with ⟨h1, -⟩ | ⟨i, h1, h2, h3, h4⟩
        · cases h1
        · exact ⟨i, h1, m, h2, h3, by omega, hsl, hsc⟩

/-- Witness for `remapPosition_sound`: the single mapped anchor of
`[[[0,0,10,4]]]` at generated column 0 remaps `(0,0)` to `(10,4)`. -/
theorem remapPosition_sound_witness :
    ∃ i, i < (([[[0, 0, 10, 4]]] : SourceMapLines).getD 0 []).length ∧
      ∃ seg, (([[[0, 0, 10, 4]]] : SourceMapLines).getD 0 [])[i]? = some seg ∧
        seg.length = 4 ∧
        (((([[[0, 0, 10, 4]]] : SourceMapLines).getD 0 []).take (i + 1)).map
          (fun s => s.getD 0 0)).sum = 0 ∧
        seg.getD 2 0 = 10 ∧ seg.getD 3 0 = 4 :=
  remapPosition_sound [[[0, 0, 10, 4]]] 0 0 10 4 (by decide)

/-! ## Claim C5 -/

/-- Claim C5 (counterexample): over source `"abc\ndef"`, after
`updateSourceMap "ab" 0` and `updateSourceMap "c" 2` the builder's
`renderMappings` returns `"AAAA,EAAE"` — the second segment's generated
column delta 2 and source column delta 2 each encode as `E` — not the
claimed `"AAAA,CAAC"` (which would decode to deltas of 1). -/
theorem builder_scenario_cex :
    renderMappings (((SourceMap.create "abc\ndef".toList).updateSourceMap
        "ab".toList (some 0) 0).updateSourceMap "c".toList (some 2) 0).lines =
      some "AAAA,EAAE".toList ∧
    some "AAAA,EAAE".toList ≠ some "AAAA,CAAC".toList :=
  ⟨by decide, by decide⟩

/-- Claim C5 (amended): for the `SourceMap` built over `"abc\ndef"` by
`updateSourceMap "ab" 0` then `updateSourceMap "c" 2`, the builder's lines
are the single resolved line `[[0,0,0,0],[2,0,0,2]]` (segments at absolute
generated columns 0 and 0+2=2) and `renderMappings` returns the string
`"AAAA,EAAE"`. -/
theorem builder_scenario :
    (((SourceMap.create "abc\ndef".toList).updateSourceMap "ab".toList (some 0) 0
      ).updateSourceMap "c".toList (some 2) 0).lines = [[[0, 0, 0, 0], [2, 0, 0, 2]]] ∧
    renderMappings [[[0, 0, 0, 0], [2, 0, 0, 2]]] = some "AAAA,EAAE".toList :=
  ⟨by decide, by decide⟩

/-! ## Association-list lemmas for the host maps -/

theorem mapGet_mapSet_self {α : Type} (m : List (String × α)) (k : String) (v : α) :
    mapGet (mapSet m k v) k = some v := by
  induction m with
  | nil => simp [mapGet, mapSet]
  | cons p rest ih =>
    unfold mapSet
    by_cases hk : p.1 = k
    · rw [if_pos hk]
      simp [mapGet]
    · rw [if_neg hk]
      unfold mapGet
      rw [if_neg hk]
      exact ih

theorem mapGet_mapSet_ne {α : Type} (m : List (String × α)) (k k' : String) (v : α)
    (h : k' ≠ k) : mapGet (mapSet m k v) k' = mapGet m k' := by
  induction m with
  | nil => simp [mapGet, mapSet, Ne.symm h]
  | cons p rest ih =>
    unfold mapSet
    by_cases hk : p.1 = k
    · rw [if_pos hk]
      simp [mapGet, hk, Ne.symm h]
    · rw [if_neg hk]
      by_cases hk' : p.1 = k'
      · simp [mapGet, hk']
      · simp [mapGet, hk', ih]

theorem mapGet_mapDelete_ne {α : Type} (m : List (String × α)) (k k' : String)
    (h : k' ≠ k) : mapGet (mapDelete m k) k' = mapGet m k' := by
  induction m with
  | nil => simp [mapDelete]
  | cons p rest ih =>
    unfold mapDelete
    by_cases hk : p.1 = k
    · rw [if_pos hk]
      simp [mapGet, hk, Ne.symm h]
    · rw [if_neg hk]
      by_cases hk' : p.1 = k'
      · simp [mapGet, hk']
      · simp [mapGet, hk', ih]

/-! ## Claim C7 -/

/-- Claim C7 (counterexample): when a document is already registered for a
non-transpilable path, `addOrUpdateDocument` does *not* replace it
(`if (!pathMap.has(path)) pathMap.set(path, doc)`): after registering
`plainDocNew` over `plainDocOld`, `pathMap` still maps `"f.ts"` to the old
document. -/
theorem addOrUpdateDocument_plain_cex :
    mapGet (addOrUpdateDocument testEnv plainHost plainDocNew).pathMap "f.ts" =
      some plainDocOld ∧ plainDocOld ≠ plainDocNew :=
  ⟨by decide, by decide⟩

/-- Claim C7 (amended): for `addOrUpdateDocument doc` on a path with no
transpiler-recognised extension, after the call the path is a member of
`scriptFileNames`, and `pathMap` maps the path to `doc` only if no document
was registered for it before the call — an existing entry is left
unchanged. -/
theorem addOrUpdateDocument_plain (env : HostEnv) (st : HostState) (doc : TextDoc)
    (h : lookupTranspiler env (getExtensionFromPath doc.path) = none) :
    ((addOrUpdateDocument env st doc).scriptFileNames.contains doc.path = true) ∧
    mapGet (addOrUpdateDocument env st doc).pathMap doc.path =
      some ((mapGet st.pathMap doc.path).getD doc) := by
  unfold addOrUpdateDocument
  simp only []
  rw [h]
  simp only []
  by_cases hc : st.scriptFileNames.contains doc.path = true
  · rw [if_pos hc]
    by_cases hp : (mapGet st.pathMap doc.path).isSome
    · rw [if_pos hp]
      rcases ho : mapGet st.pathMap doc.path with _ | v
      · rw [ho] at hp
        simp at hp
      · exact ⟨hc, by simp [ho]⟩
    · rw [if_neg hp]
      have hnone : mapGet st.pathMap doc.path = none := by
        rcases ho : mapGet st.pathMap doc.path with _ | v
        · rfl
        · rw [ho] at hp
          simp at hp
      exact ⟨hc, by simp [mapGet_mapSet_self, hnone]⟩
  · rw [if_neg hc]
    have hcadd : (st.scriptFileNames ++ [doc.path]).contains doc.path = true := by
      simp
    by_cases hp : (mapGet st.pathMap doc.path).isSome
    · rw [if_pos hp]
      rcases ho : mapGet st.pathMap doc.path with _ | v
      · rw [ho] at hp
        simp at hp
      · exact ⟨hcadd, by simp [ho]⟩
    · rw [if_neg hp]
      have hnone : mapGet st.pathMap doc.path = none := by
        rcases ho : mapGet st.pathMap doc.path with _ | v
        · rfl
        · rw [ho] at hp
          simp at hp
      exact ⟨hcadd, by simp [mapGet_mapSet_self, hnone]⟩

/-- Witness for `addOrUpdateDocument_plain`: registering `plainDocOld` in an
empty host. -/
theorem addOrUpdateDocument_plain_witness :
    ((addOrUpdateDocument testEnv emptyHost plainDocOld).scriptFileNames.contains
      "f.ts" = true) ∧
    mapGet (addOrUpdateDocument testEnv emptyHost plainDocOld).pathMap "f.ts" =
      some ((mapGet emptyHost.pathMap "f.ts").getD plainDocOld) :=
  addOrUpdateDocument_plain testEnv emptyHost plainDocOld rfl

/-! ## Claim C8: longest-common-prefix/suffix characterisation -/

theorem lcpLen_cons (a b : Char) (as bs : List Char) :
    lcpLen (a :: as) (b :: bs) = if a = b then lcpLen as bs + 1 else 0 := rfl

/-- The forward scan finds exactly the longest common prefix of the
remaining drops (when it is shorter than the remaining budget). -/
theorem scanMismatch_spec : ∀ (k s : Nat) (oldText newText : List Char),
    s + k = min oldText.length newText.length →
    scanMismatch oldText newText k s =
      if lcpLen (oldText.drop s) (newText.drop s) < k then
        some (s + lcpLen (oldText.drop s) (newText.drop s))
      else none := by
  intro k
  induction k with
  | zero =>
    intro s oldText newText hs
    simp [scanMismatch]
  | succ k ih =>
    intro s oldText newText hs
    have hso : s < oldText.length := by omega
    have hsn : s < newText.length := by omega
    have hdo : oldText.drop s = oldText[s] :: oldText.drop (s + 1) :=
      List.drop_eq_getElem_cons hso
    have hdn : newText.drop s = newText[s] :: newText.drop (s + 1) :=
      List.drop_eq_getElem_cons hsn
    unfold scanMismatch
    rw [List.getD_eq_getElem oldText ' ' hso, List.getD_eq_getElem newText ' ' hsn]
    by_cases hne : oldText[s] = newText[s]
    · rw [if_neg (by simpa using hne)]
      rw [ih (s + 1) oldText newText (by omega)]
      rw [hdo, hdn, lcpLen_cons, if_pos hne]
      by_cases hlt : lcpLen (oldText.drop (s + 1)) (newText.drop (s + 1)) < k
      · rw [if_pos hlt, if_pos (by omega)]
        congr 1
        omega
      · rw [if_neg hlt, if_neg (by omega)]
    · rw [if_pos (by simpa using hne)]
      rw [hdo, hdn, lcpLen_cons, if_neg hne]
      rw [if_pos (by omega)]
      simp

/-- The backward scan decrements `end` once per matching character pair,
stopping at the first mismatch or after `stop` steps: it subtracts the
common-suffix length capped at the budget. -/
theorem suffixScanEnd_spec : ∀ (k i e : Nat) (oldText newText : List Char),
    i + k ≤ min oldText.length newText.length →
    suffixScanEnd oldText newText k i e =
      e - min k (lcpLen (oldText.reverse.drop i) (newText.reverse.drop i)) := by
  intro k
  induction k with
  | zero =>
    intro i e oldText newText hik
    simp [suffixScanEnd]
  | succ k ih =>
    intro i e oldText newText hik
    have hio : i < oldText.length := by omega
    have hin : i < newText.length := by omega
    have hio' : i < oldText.reverse.length := by simpa using hio
    have hin' : i < newText.reverse.length := by simpa using hin
    have hdo : oldText.reverse.drop i = oldText.reverse[i] :: oldText.reverse.drop (i + 1) :=
      List.drop_eq_getElem_cons hio'
    have hdn : newText.reverse.drop i = newText.reverse[i] :: newText.reverse.drop (i + 1) :=
      List.drop_eq_getElem_cons hin'
    have hgo : oldText.getD (oldText.length - i - 1) ' ' = oldText.reverse[i] := by
      have h1 : oldText.length - i - 1 < oldText.length := by omega
      rw [List.getD_eq_getElem oldText ' ' h1, List.getElem_reverse]
      congr 1
      omega
    have hgn : newText.getD (newText.length - i - 1) ' ' = newText.reverse[i] := by
      have h1 : newText.length - i - 1 < newText.length := by omega
      rw [List.getD_eq_getElem newText ' ' h1, List.getElem_reverse]
      congr 1
      omega
    unfold suffixScanEnd
    rw [hgo, hgn]
    by_cases hne : oldText.reverse[i] = newText.reverse[i]
    · rw [if_neg (by simpa using hne)]
      rw [ih (i + 1) (e - 1) oldText newText (by omega)]
      rw [hdo, hdn, lcpLen_cons, if_pos hne]
      omega
    · rw [if_pos (by simpa using hne)]
      rw [hdo, hdn, lcpLen_cons, if_neg hne]
      simp

/-! ## Claim C8 -/

/-- Claim C8 (counterexample): the claim asserts the span formula for *any*
two texts, but when one text is a prefix of the other (here `"a"` and
`"ab"`) the forward scan finds no mismatching index and
`fullDiffTextChangeRange` returns `undefined` — not the claimed span
`{start := prefixLen = 1, length := 0, newLength := 1}`. -/
theorem fullDiff_cex :
    fullDiffTextChangeRange "a".toList "ab".toList = none ∧
      (none : Option JsTextChangeRange) ≠
        some { start := 1, length := 0, newLength := 1 } :=
  ⟨by decide, by decide⟩

/-- Claim C8 (amended): when the two texts differ at some index below
`min(oldLen, newLen)`, `getChangeRange` returns the span starting at
`p = lcpLen` (the longest-common-prefix length) with
`length = (oldLen - s') - p` and `newLength = newLen - p - s'`, where `s'`
is the longest-common-suffix length *capped at `min(oldLen, newLen) - p`*
(the backward scan stops after `minLength - start` steps, so a suffix
overlapping the prefix is not fully counted); when no index below the
common length differs (one text a prefix of the other), it returns
`undefined`. -/
theorem fullDiff_spec (oldText newText : List Char) :
    fullDiffTextChangeRange oldText newText =
      if lcpLen oldText newText < min oldText.length newText.length then
        some { start := (lcpLen oldText newText : Int)
               length := ((oldText.length : Int) -
                   (min (lcsLen oldText newText)
                     (min oldText.length newText.length - lcpLen oldText newText) : Nat)) -
                 (lcpLen oldText newText : Int)
               newLength := (newText.length : Int) - (lcpLen oldText newText : Int) -
                 (min (lcsLen oldText newText)
                   (min oldText.length newText.length - lcpLen oldText newText) : Nat) }
      else none := by
  unfold fullDiffTextChangeRange
  simp only []
  rw [scanMismatch_spec (min oldText.length newText.length) 0 oldText newText (by omega)]
  simp only [List.drop_zero, Nat.zero_add]
  by_cases hlt : lcpLen oldText newText < min oldText.length newText.length
  · rw [if_pos hlt, if_pos hlt]
    simp only []
    rw [suffixScanEnd_spec (min oldText.length newText.length - lcpLen oldText newText) 0
      oldText.length oldText newText (by omega)]
    simp only [List.drop_zero, lcsLen]
    split
    · exfalso
      rename_i hclamp
      rw [Nat.min_comm] at hclamp
      omega
    · rename_i hclamp
      rw [Nat.min_comm] at hclamp ⊢
      simp only [Option.some.injEq, JsTextChangeRange.mk.injEq]
      exact ⟨trivial, by omega, by omega⟩
  · rw [if_neg hlt, if_neg hlt]

/-! ## Claim C10 -/

/-- Claim C10: when the code passed to `SourceMap.remap` contains no trailing
inline `sourceMappingURL` comment matching `smRegexp`, the upstream map is
returned unchanged (its `lines` untouched — no `parseWithLines`, no
`composeLines`), and the result is the input code with only a newline and a
fresh inline comment (derived from the unchanged upstream map) appended. -/
theorem remap_no_inline_map (ext : JsExt) (code : List Char) (upstreamMap : SourceMap)
    (sourcePath targetPath : List Char)
    (hstrip : stripSMComment code = none) (cmt : List Char)
    (hcmt : SourceMap.comment ext upstreamMap sourcePath targetPath = some cmt) :
    SourceMap.remap ext code upstreamMap sourcePath targetPath =
      some (.ok (code ++ '\n' :: cmt, upstreamMap)) := by
  unfold SourceMap.remap
  rw [hstrip]
  simp only []
  rw [hcmt]

/-- Witness for `remap_no_inline_map` on a code string with no inline map
comment and a freshly created (empty) upstream map. -/
theorem remap_no_inline_map_witness :
    SourceMap.remap trivialJsExt "const x = 1".toList (SourceMap.create "x".toList)
        "a.civet".toList "a.ts".toList =
      some (.ok ("const x = 1".toList ++ '\n' ::
        "//# sourceMappingURL=data:application/json;base64,".toList,
        SourceMap.create "x".toList)) :=
  remap_no_inline_map trivialJsExt "const x = 1".toList (SourceMap.create "x".toList)
    "a.civet".toList "a.ts".toList (by decide)
    "//# sourceMappingURL=data:application/json;base64,".toList (by decide)

/-! ## Claims C1 and C6: compile-throw behaviour of the snapshot path -/

theorem createOrUpdateMeta_pathMap (st : HostState) (path : String) (d : TextDoc)
    (l : Option SourceMapLines) (e : Option (List String)) (f : Option Bool) :
    (createOrUpdateMeta st path d l e f).pathMap = st.pathMap := by
  unfold createOrUpdateMeta
  rcases mapGet st.fileMetaData path <;> rfl

theorem createOrUpdateMeta_snapshotMap (st : HostState) (path : String) (d : TextDoc)
    (l : Option SourceMapLines) (e : Option (List String)) (f : Option Bool) :
    (createOrUpdateMeta st path d l e f).snapshotMap = st.snapshotMap := by
  unfold createOrUpdateMeta
  rcases mapGet st.fileMetaData path <;> rfl

/-- The metadata stored by `createOrUpdateMeta` at its own path carries
exactly the `sourcemapLines`, `parseErrors` and `fatal` passed in (both in
the create and in the update branch). -/
theorem createOrUpdateMeta_get_self (st : HostState) (path : String) (d : TextDoc)
    (l : Option SourceMapLines) (e : Option (List String)) (f : Option Bool) :
    ∃ m, mapGet (createOrUpdateMeta st path d l e f).fileMetaData path = some m ∧
      m.sourcemapLines = l ∧ m.parseErrors = e ∧ m.fatal = f := by
  unfold createOrUpdateMeta
  rcases mapGet st.fileMetaData path with _ | old
  · simp only []
    exact ⟨_, mapGet_mapSet_self _ _ _, rfl, rfl, rfl⟩
  · simp only []
    exact ⟨_, mapGet_mapSet_self _ _ _, rfl, rfl, rfl⟩

/-- The state produced by `getOrCreatePathSnapshot` on a mirror path whose
source is ahead and whose compile throws: the thrown error is caught, the
metadata is rewritten (`fatal = true`, the exception as the errors,
`sourcemapLines` cleared), the mirror document is untouched, and the
previous mirror text is cached and returned as the snapshot. -/
theorem getOrCreate_compile_throw_state (env : HostEnv) (st : HostState) (path : String)
    (e1 e2 : String) (T : Transpiler) (srcPath : String) (srcDoc mirrorDoc : TextDoc)
    (err : String)
    (hsnap : mapGet st.snapshotMap path = none)
    (hexts : getTranspiledExtensionsFromPath path = some (e1, e2))
    (hT : lookupTranspiler env e1 = some T)
    (hsrcPath : removeExtension path = srcPath)
    (hsrcDoc : mapGet st.pathMap srcPath = some srcDoc)
    (hmirror : mapGet st.pathMap path = some mirrorDoc)
    (htext : srcDoc.text ≠ "")
    (hver : mirrorDoc.version < srcDoc.version)
    (hthrow : T.compile srcPath srcDoc.text = .error err) :
    getOrCreatePathSnapshot env st path =
      (mirrorDoc.text,
        { createOrUpdateMeta st srcPath mirrorDoc none (some [err]) (some true) with
            snapshotMap :=
              mapSet (createOrUpdateMeta st srcPath mirrorDoc none (some [err])
                (some true)).snapshotMap path mirrorDoc.text }) := by
  unfold getOrCreatePathSnapshot
  rw [hsnap]
  simp only []
  rw [hexts]
  simp only [Option.some_bind]
  rw [hT]
  simp only []
  rw [hsrcPath, hsrcDoc, hmirror]
  simp only []
  rw [if_pos ⟨htext, hver⟩]
  unfold doTranspileAndUpdateMeta
  rw [hthrow]

theorem getOrCreatePathSnapshot_hit (env : HostEnv) (st : HostState) (path text : String)
    (h : mapGet st.snapshotMap path = some text) :
    getOrCreatePathSnapshot env st path = (text, st) := by
  unfold getOrCreatePathSnapshot
  rw [h]

/-- Claim C1: when `compile` throws during `getScriptSnapshot` for a mirror
path whose source document is ahead of the mirror document, the exception
does not escape (the call is total and returns a snapshot): the returned
snapshot text is the mirror document's previous text, the mirror document in
`pathMap` is unchanged (same text and pre-failure version), and a subsequent
`getMeta` for the source path reports `fatal = true` with the thrown error
recorded in `parseErrors`. -/
theorem getScriptSnapshot_compile_throw (env : HostEnv) (st : HostState) (path : String)
    (e1 e2 : String) (T : Transpiler) (srcPath : String) (srcDoc mirrorDoc : TextDoc)
    (err : String)
    (hsnap : mapGet st.snapshotMap path = none)
    (hexts : getTranspiledExtensionsFromPath path = some (e1, e2))
    (hT : lookupTranspiler env e1 = some T)
    (hsrcPath : removeExtension path = srcPath)
    (hsrcDoc : mapGet st.pathMap srcPath = some srcDoc)
    (hmirror : mapGet st.pathMap path = some mirrorDoc)
    (htext : srcDoc.text ≠ "")
    (hver : mirrorDoc.version < srcDoc.version)
    (hthrow : T.compile srcPath srcDoc.text = .error err)
    (hext1 : getExtensionFromPath srcPath = e1)
    (hlink : srcPath ++ T.target = path) :
    (getScriptSnapshot env st path).1 = mirrorDoc.text ∧
    mapGet (getScriptSnapshot env st path).2.pathMap path = some mirrorDoc ∧
    ((getMeta env (getScriptSnapshot env st path).2 srcPath).1.map (fun m => m.fatal) =
      some (some true)) ∧
    ((getMeta env (getScriptSnapshot env st path).2 srcPath).1.map (fun m => m.parseErrors) =
      some (some [err])) := by
  have hstate := getOrCreate_compile_throw_state env st path e1 e2 T srcPath srcDoc mirrorDoc err
    hsnap hexts hT hsrcPath hsrcDoc hmirror htext hver hthrow
  have hgss : getScriptSnapshot env st path = getOrCreatePathSnapshot env st path := rfl
  rw [hgss, hstate]
  have htp : getTranspiledPath env srcPath = path := by
    unfold getTranspiledPath
    rw [hext1, hT]
    exact hlink
  have hhit := getOrCreatePathSnapshot_hit env
    ({ createOrUpdateMeta st srcPath mirrorDoc none (some [err]) (some true) with
        snapshotMap :=
          mapSet (createOrUpdateMeta st srcPath mirrorDoc none (some [err])
            (some true)).snapshotMap path mirrorDoc.text }) path mirrorDoc.text
    (mapGet_mapSet_self _ _ _)
  obtain ⟨m, hm, hml, hme, hmf⟩ :=
    createOrUpdateMeta_get_self st srcPath mirrorDoc none (some [err]) (some true)
  have hgm : (getMeta env
      ({ createOrUpdateMeta st srcPath mirrorDoc none (some [err]) (some true) with
          snapshotMap :=
            mapSet (createOrUpdateMeta st srcPath mirrorDoc none (some [err])
              (some true)).snapshotMap path mirrorDoc.text }) srcPath).1 = some m := by
    unfold getMeta
    rw [htp]
    simp only []
    rw [hhit]
    exact hm
  refine ⟨rfl, ?_, ?_, ?_⟩
  · show mapGet (createOrUpdateMeta st srcPath mirrorDoc none (some [err])
      (some true)).pathMap path = some mirrorDoc
    rw [createOrUpdateMeta_pathMap]
    exact hmirror
  · simp [hgm, hmf]
  · simp [hgm, hme]

theorem getScriptSnapshot_compile_throw_witness :
    (getScriptSnapshot testEnv hostStep3 "a.civet.tsx").1 = "ok" ∧
    mapGet (getScriptSnapshot testEnv hostStep3 "a.civet.tsx").2.pathMap "a.civet.tsx" =
      some { path := "a.civet.tsx", languageId := "none", version := 1, text := "ok" } ∧
    ((getMeta testEnv (getScriptSnapshot testEnv hostStep3 "a.civet.tsx").2 "a.civet").1.map
      (fun m => m.fatal) = some (some true)) ∧
    ((getMeta testEnv (getScriptSnapshot testEnv hostStep3 "a.civet.tsx").2 "a.civet").1.map
      (fun m => m.parseErrors) = some (some ["boom"])) :=
  getScriptSnapshot_compile_throw testEnv hostStep3 "a.civet.tsx" ".civet" ".tsx" testTranspiler
    "a.civet" docV2 { path := "a.civet.tsx", languageId := "none", version := 1, text := "ok" }
    "boom" (by decide) (by decide) rfl (by decide) (by decide) (by decide)
    (by decide) (by decide) rfl (by decide) (by decide)

/-- Claim C6 (corrected): a throwing transpile attempt does not preserve the
`sourcemapLines` of the latest successful transpilation.  On the throw path
`doTranspileAndUpdateMeta` calls `createOrUpdateMeta` with
`sourcemapLines = undefined`, and `createOrUpdateMeta` overwrites the stored
field with exactly that value, so after the failed attempt the metadata's
`sourcemapLines` is absent even when a previous transpilation had succeeded;
`parseErrors` and `fatal` record the failure as the spec says. -/
theorem transpile_throw_clears_sourcemapLines (env : HostEnv) (st : HostState) (path : String)
    (e1 e2 : String) (T : Transpiler) (srcPath : String) (srcDoc mirrorDoc : TextDoc)
    (err : String) (prev : SourceMapLines)
    (hsnap : mapGet st.snapshotMap path = none)
    (hexts : getTranspiledExtensionsFromPath path = some (e1, e2))
    (hT : lookupTranspiler env e1 = some T)
    (hsrcPath : removeExtension path = srcPath)
    (hsrcDoc : mapGet st.pathMap srcPath = some srcDoc)
    (hmirror : mapGet st.pathMap path = some mirrorDoc)
    (htext : srcDoc.text ≠ "")
    (hver : mirrorDoc.version < srcDoc.version)
    (hthrow : T.compile srcPath srcDoc.text = .error err)
    (_hprev : (mapGet st.fileMetaData srcPath).map (fun m => m.sourcemapLines) =
      some (some prev)) :
    ∃ m, mapGet (getScriptSnapshot env st path).2.fileMetaData srcPath = some m ∧
      m.sourcemapLines = none ∧ m.parseErrors = some [err] ∧ m.fatal = some true := by
  have hstate := getOrCreate_compile_throw_state env st path e1 e2 T srcPath srcDoc mirrorDoc err
    hsnap hexts hT hsrcPath hsrcDoc hmirror htext hver hthrow
  have hgss : getScriptSnapshot env st path = getOrCreatePathSnapshot env st path := rfl
  rw [hgss, hstate]
  obtain ⟨m, hm, hml, hme, hmf⟩ :=
    createOrUpdateMeta_get_self st srcPath mirrorDoc none (some [err]) (some true)
  exact ⟨m, hm, hml, hme, hmf⟩

theorem transpile_throw_clears_sourcemapLines_witness :
    ∃ m, mapGet (getScriptSnapshot testEnv hostStep3 "a.civet.tsx").2.fileMetaData "a.civet" =
        some m ∧
      m.sourcemapLines = none ∧ m.parseErrors = some ["boom"] ∧ m.fatal = some true :=
  transpile_throw_clears_sourcemapLines testEnv hostStep3 "a.civet.tsx" ".civet" ".tsx"
    testTranspiler "a.civet" docV2
    { path := "a.civet.tsx", languageId := "none", version := 1, text := "ok" }
    "boom" [[[0, 0, 0, 0]]] (by decide) (by decide) rfl (by decide) (by decide) (by decide)
    (by decide) (by decide) rfl (by decide)

/-- Counterexample to claim C6 as stated: in the two-round host scenario the
first round's successful transpilation stores resolved sourcemap lines, and
the second round's throwing transpilation erases them (the metadata ends with
`sourcemapLines` absent, not the last successful map). -/
theorem transpile_throw_clears_sourcemapLines_cex :
    (mapGet hostStep3.fileMetaData "a.civet").map (fun m => m.sourcemapLines) =
      some (some [[[0, 0, 0, 0]]]) ∧
    (mapGet hostStep4.fileMetaData "a.civet").map (fun m => m.sourcemapLines) = some none ∧
    (mapGet hostStep4.fileMetaData "a.civet").map (fun m => m.fatal) = some (some true) ∧
    (mapGet hostStep4.fileMetaData "a.civet").map (fun m => m.parseErrors) =
      some (some ["boom"]) := by
  decide

/-! ## Round trip of `renderMappings` and `parseMappings` (claim C3 machinery) -/

theorem base64_getD_fin : ∀ d : Fin 64,
    BASE64_CHARS.getD (d : Nat) 'A' ≠ ',' ∧ BASE64_CHARS.getD (d : Nat) 'A' ≠ ';' := by
  decide

/-- No index of the base64 alphabet (nor the out-of-range default `'A'`)
yields one of the two separator characters. -/
theorem base64_getD_not_sep (k : Nat) :
    BASE64_CHARS.getD k 'A' ≠ ',' ∧ BASE64_CHARS.getD k 'A' ≠ ';' := by
  by_cases h : k < 64
  · exact base64_getD_fin ⟨k, h⟩
  · rw [List.getD_eq_default]
    · exact ⟨by decide, by decide⟩
    · have hlen : BASE64_CHARS.length = 64 := by decide
      omega

theorem vlqChunkChars_not_sep (ds : List Nat) : ∀ c ∈ vlqChunkChars ds, c ≠ ',' ∧ c ≠ ';' := by
  induction ds with
  | nil => simp [vlqChunkChars]
  | cons d ds ih =>
    cases ds with
    | nil =>
      intro c hc
      rw [show vlqChunkChars [d] = [BASE64_CHARS.getD d 'A'] from rfl,
        List.mem_singleton] at hc
      subst hc
      exact base64_getD_not_sep d
    | cons d2 ds2 =>
      intro c hc
      rw [show vlqChunkChars (d :: d2 :: ds2) =
        BASE64_CHARS.getD (d + 32) 'A' :: vlqChunkChars (d2 :: ds2) from rfl] at hc
      rcases List.mem_cons.mp hc with h | h
      · subst h
        exact base64_getD_not_sep _
      · exact ih c h

theorem vlqEncChars_not_sep (v : Int) : ∀ c ∈ vlqEncChars v, c ≠ ',' ∧ c ≠ ';' := by
  intro c hc
  unfold vlqEncChars at hc
  simp only [] at hc
  by_cases h : 2 * v.natAbs + (if v < 0 then 1 else 0) = 0
  · rw [if_pos h] at hc
    simp at hc
    subst hc
    exact ⟨by decide, by decide⟩
  · rw [if_neg h] at hc
    exact vlqChunkChars_not_sep _ c hc

theorem vlqEncList_cons_ne_nil (v : Int) (vs : List Int) : vlqEncList (v :: vs) ≠ [] := by
  rw [show vlqEncList (v :: vs) = vlqEncChars v ++ vlqEncList vs from rfl]
  intro hc
  rcases List.append_eq_nil.mp hc with ⟨h1, _⟩
  exact vlqEncChars_ne_nil v h1

theorem mem_vlqEncList : ∀ (vs : List Int) (c : Char), c ∈ vlqEncList vs →
    ∃ v ∈ vs, c ∈ vlqEncChars v := by
  intro vs
  induction vs with
  | nil =>
    intro c hc
    simp [vlqEncList] at hc
  | cons v vs ih =>
    intro c hc
    rw [show vlqEncList (v :: vs) = vlqEncChars v ++ vlqEncList vs from rfl] at hc
    rcases List.mem_append.mp hc with h | h
    · exact ⟨v, by simp, h⟩
    · obtain ⟨u, hu, hcu⟩ := ih c h
      exact ⟨u, by simp [hu], hcu⟩

theorem vlqEncList_length : ∀ vs : List Int, vs.length ≤ (vlqEncList vs).length := by
  intro vs
  induction vs with
  | nil => simp [vlqEncList]
  | cons v vs ih =>
    show vs.length + 1 ≤ (vlqEncChars v ++ vlqEncList vs).length
    rw [List.length_append]
    have h1 : 1 ≤ (vlqEncChars v).length := by
      rcases hl : vlqEncChars v with _ | ⟨c, tl⟩
      · exact absurd hl (vlqEncChars_ne_nil v)
      · simp
    omega

theorem splitOnChar_ne_nil (sep : Char) : ∀ cs : List Char, splitOnChar sep cs ≠ [] := by
  intro cs
  induction cs with
  | nil => simp [splitOnChar]
  | cons c rest ih =>
    by_cases h : c = sep
    · simp [splitOnChar, h]
    · simp only [splitOnChar, if_neg h]
      rcases hsplit : splitOnChar sep rest with _ | ⟨part, parts⟩
      · simp
      · simp

theorem splitOnChar_no_sep (sep : Char) : ∀ p : List Char, (∀ c ∈ p, c ≠ sep) →
    splitOnChar sep p = [p] := by
  intro p
  induction p with
  | nil => intro _; rfl
  | cons c rest ih =>
    intro h
    have hc : c ≠ sep := h c (by simp)
    show (if c = sep then [] :: splitOnChar sep rest
      else match splitOnChar sep rest with
        | [] => [[c]]
        | part :: parts => (c :: part) :: parts) = [c :: rest]
    rw [if_neg hc, ih (fun x hx => h x (by simp [hx]))]

theorem splitOnChar_sep_cons (sep : Char) : ∀ p t : List Char, (∀ c ∈ p, c ≠ sep) →
    splitOnChar sep (p ++ sep :: t) = p :: splitOnChar sep t := by
  intro p
  induction p with
  | nil =>
    intro t _
    show (if sep = sep then [] :: splitOnChar sep t
      else match splitOnChar sep t with
        | [] => [[sep]]
        | part :: parts => (sep :: part) :: parts) = [] :: splitOnChar sep t
    rw [if_pos rfl]
  | cons c rest ih =>
    intro t h
    have hc : c ≠ sep := h c (by simp)
    show (if c = sep then [] :: splitOnChar sep (rest ++ sep :: t)
      else match splitOnChar sep (rest ++ sep :: t) with
        | [] => [[c]]
        | part :: parts => (c :: part) :: parts) = (c :: rest) :: splitOnChar sep t
    rw [if_neg hc, ih t (fun x hx => h x (by simp [hx]))]

/-- Splitting inverts joining when the parts are free of the separator. -/
theorem splitOnChar_join (sep : Char) : ∀ parts : List (List Char), parts ≠ [] →
    (∀ p ∈ parts, ∀ c ∈ p, c ≠ sep) → splitOnChar sep (joinWithChar sep parts) = parts := by
  intro parts
  induction parts with
  | nil => intro h _; exact absurd rfl h
  | cons p parts ih =>
    intro _ hfree
    cases parts with
    | nil => exact splitOnChar_no_sep sep p (hfree p (by simp))
    | cons q qs =>
      show splitOnChar sep (p ++ sep :: joinWithChar sep (q :: qs)) = p :: q :: qs
      rw [splitOnChar_sep_cons sep p _ (hfree p (by simp))]
      rw [ih (by simp) (fun r hr => hfree r (by simp [hr]))]

theorem mem_joinWithChar (sep : Char) : ∀ (parts : List (List Char)) (c : Char),
    c ∈ joinWithChar sep parts → c = sep ∨ ∃ p ∈ parts, c ∈ p := by
  intro parts
  induction parts with
  | nil =>
    intro c hc
    simp [joinWithChar] at hc
  | cons p parts ih =>
    intro c hc
    cases parts with
    | nil => exact Or.inr ⟨p, by simp, hc⟩
    | cons q qs =>
      rw [show joinWithChar sep (p :: q :: qs) = p ++ sep :: joinWithChar sep (q :: qs)
        from rfl] at hc
      rcases List.mem_append.mp hc with h | h
      · exact Or.inr ⟨p, by simp, h⟩
      · rcases List.mem_cons.mp h with rfl | h'
        · exact Or.inl rfl
        · rcases ih c h' with h'' | ⟨r, hr, hcr⟩
          · exact Or.inl h''
          · exact Or.inr ⟨r, by simp [hr], hcr⟩

theorem joinWithChar_ne_nil (sep : Char) (s : List Char) (hs : s ≠ []) (ss : List (List Char)) :
    joinWithChar sep (s :: ss) ≠ [] := by
  cases ss with
  | nil => exact hs
  | cons q qs =>
    show s ++ sep :: joinWithChar sep (q :: qs) ≠ []
    simp

/-- Decoding consumes the encodings of a list of values from the front. -/
theorem decodeVLQGo_encList (vs : List Int) : (∀ v ∈ vs, v.natAbs < 2 ^ 30) →
    ∀ (fuel : Nat) (rest : List Char) (acc : List Int),
    decodeVLQGo (fuel + vs.length) (vlqEncList vs ++ rest) acc =
      decodeVLQGo fuel rest (acc ++ vs) := by
  induction vs with
  | nil =>
    intro _ fuel rest acc
    simp [vlqEncList]
  | cons v vs ih =>
    intro h fuel rest acc
    have h1 : v.natAbs < 2 ^ 30 := h v (by simp)
    rw [show vlqEncList (v :: vs) = vlqEncChars v ++ vlqEncList vs from rfl]
    rw [List.append_assoc]
    rw [show fuel + (v :: vs).length = (fuel + vs.length) + 1 from by simp; omega]
    rw [decodeVLQGo_enc v h1 (fuel + vs.length) (vlqEncList vs ++ rest) acc]
    rw [ih (fun u hu => h u (by simp [hu])) fuel rest (acc ++ [v])]
    simp

/-- Decoding the concatenated encodings of a list of values yields that list. -/
theorem decodeVLQ_encList (vs : List Int) (h : ∀ v ∈ vs, v.natAbs < 2 ^ 30) :
    decodeVLQ (vlqEncList vs) = .ok vs := by
  unfold decodeVLQ
  have hlen := vlqEncList_length vs
  rw [show (vlqEncList vs).length = ((vlqEncList vs).length - vs.length) + vs.length
    from by omega]
  rw [show vlqEncList vs = vlqEncList vs ++ [] from by simp]
  rw [decodeVLQGo_encList vs h _ [] []]
  simp [decodeVLQGo]

/-- Rendering an arity-1 entry emits the encoding of its column delta and
leaves the running state unchanged. -/
theorem renderEntry_len1 (L C a : Int) (ha : a.natAbs < 2 ^ 30) :
    renderEntry L C [a] = some (vlqEncChars a, L, C) := by
  unfold renderEntry
  rw [if_neg (by simp)]
  rw [show [a].getD 0 0 = a from rfl]
  rw [encodeVlq_spec a ha]

/-- Parsing the encoding of an arity-1 entry recovers it and leaves the
accumulators unchanged. -/
theorem parseEntry_enc1 (L C a : Int) (ha : a.natAbs < 2 ^ 30) :
    parseEntry L C (vlqEncChars a) = .ok ([a], L, C) := by
  unfold parseEntry
  rw [decodeVLQ_enc_single a ha]
  simp only []
  rw [if_pos (by simp)]

/-- Rendering an arity-4 entry emits the four encoded fields (source line and
column as deltas against the running state) and sets the running state to the
entry's absolute source position. -/
theorem renderEntry_len4 (L C a b sl sc : Int)
    (ha : a.natAbs < 2 ^ 30) (hb : b.natAbs < 2 ^ 30)
    (hdl : (sl - L).natAbs < 2 ^ 30) (hdc : (sc - C).natAbs < 2 ^ 30) :
    renderEntry L C [a, b, sl, sc] = some (vlqEncList [a, b, sl - L, sc - C], sl, sc) := by
  unfold renderEntry
  rw [if_pos (by simp)]
  simp only []
  rw [show [a, b, sl, sc].getD 2 0 = sl from rfl, show [a, b, sl, sc].getD 3 0 = sc from rfl,
    show [a, b, sl, sc].getD 0 0 = a from rfl, show [a, b, sl, sc].getD 1 0 = b from rfl]
  rw [encodeVlq_spec a ha, encodeVlq_spec b hb, encodeVlq_spec _ hdl, encodeVlq_spec _ hdc]
  simp only []
  rw [show vlqEncList [a, b, sl - L, sc - C] = vlqEncChars a ++ (vlqEncChars b ++
    (vlqEncChars (sl - L) ++ (vlqEncChars (sc - C) ++ []))) from rfl]
  simp only [List.append_assoc, List.append_nil]

/-- Parsing the rendered arity-4 entry recovers the entry (the deltas resolved
back to absolutes) and advances the accumulators to its source position. -/
theorem parseEntry_enc4 (L C a b sl sc : Int)
    (ha : a.natAbs < 2 ^ 30) (hb : b.natAbs < 2 ^ 30)
    (hdl : (sl - L).natAbs < 2 ^ 30) (hdc : (sc - C).natAbs < 2 ^ 30) :
    parseEntry L C (vlqEncList [a, b, sl - L, sc - C]) = .ok ([a, b, sl, sc], sl, sc) := by
  have hd : decodeVLQ (vlqEncList [a, b, sl - L, sc - C]) = .ok [a, b, sl - L, sc - C] :=
    decodeVLQ_encList [a, b, sl - L, sc - C] (by
      intro v hv
      simp at hv
      rcases hv with rfl | rfl | rfl | rfl <;> assumption)
  unfold parseEntry
  rw [hd]
  simp only []
  rw [if_neg (by simp)]
  rw [if_pos (Or.inl (by simp))]
  rw [show [a, b, sl - L, sc - C].getD 2 0 = sl - L from rfl,
    show [a, b, sl - L, sc - C].getD 3 0 = sc - C from rfl]
  rw [show L + (sl - L) = sl from by ring, show C + (sc - C) = sc from by ring]
  rfl

/-- Render/parse round trip for a single line: under the arity and magnitude
restrictions, rendering the entries threads the running state exactly as the
second parse's accumulators, every emitted part is non-empty and free of both
separators, and parsing the parts recovers the entries. -/
theorem renderParse_line (entries : SourceMapLine) : ∀ L C : Int,
    L.natAbs ≤ 2 ^ 28 → C.natAbs ≤ 2 ^ 28 →
    (∀ e ∈ entries, (e.length = 1 ∨ e.length = 4) ∧ ∀ v ∈ e, v.natAbs ≤ 2 ^ 28) →
    ∃ ss L' C',
      renderLineEntries L C entries = some (ss, L', C') ∧
      L'.natAbs ≤ 2 ^ 28 ∧ C'.natAbs ≤ 2 ^ 28 ∧
      (∀ s ∈ ss, s ≠ [] ∧ ∀ c ∈ s, c ≠ ',' ∧ c ≠ ';') ∧
      parseLineEntries L C ss = .ok (entries, L', C') := by
  induction entries with
  | nil =>
    intro L C hL hC _
    exact ⟨[], L, C, rfl, hL, hC, by simp, rfl⟩
  | cons e es ih =>
    intro L C hL hC h
    obtain ⟨harity, hbound⟩ := h e (by simp)
    rcases harity with h1 | h4
    · -- arity 1
      obtain ⟨a, rfl⟩ : ∃ a, e = [a] := by
        rcases e with _ | ⟨a, tl⟩
        · simp at h1
        · rcases tl with _ | ⟨b, tl2⟩
          · exact ⟨a, rfl⟩
          · simp at h1
      have ha : a.natAbs < 2 ^ 30 := by
        have := hbound a (by simp)
        omega
      obtain ⟨ss, L', C', hr, hL', hC', hok, hp⟩ :=
        ih L C hL hC (fun x hx => h x (by simp [hx]))
      refine ⟨vlqEncChars a :: ss, L', C', ?_, hL', hC', ?_, ?_⟩
      · rw [renderLineEntries_cons, renderEntry_len1 L C a ha]
        simp only []
        rw [hr]
      · intro s hs
        rcases List.mem_cons.mp hs with rfl | hs'
        · exact ⟨vlqEncChars_ne_nil a, vlqEncChars_not_sep a⟩
        · exact hok s hs'
      · rw [parseLineEntries_cons, parseEntry_enc1 L C a ha]
        simp only []
        rw [hp]
    · -- arity 4
      rcases e with _ | ⟨a, e⟩
      · simp at h4
      rcases e with _ | ⟨b, e⟩
      · simp at h4
      rcases e with _ | ⟨sl, e⟩
      · simp at h4
      rcases e with _ | ⟨sc, e⟩
      · simp at h4
      rcases e with _ | ⟨x, e⟩
      case cons.intro.inr.cons.cons.cons.cons.cons => simp at h4
      have ha : a.natAbs < 2 ^ 30 := by
        have := hbound a (by simp)
        omega
      have hb : b.natAbs < 2 ^ 30 := by
        have := hbound b (by simp)
        omega
      have hsl : sl.natAbs ≤ 2 ^ 28 := hbound sl (by simp)
      have hsc : sc.natAbs ≤ 2 ^ 28 := hbound sc (by simp)
      have hdl : (sl - L).natAbs < 2 ^ 30 := by omega
      have hdc : (sc - C).natAbs < 2 ^ 30 := by omega
      obtain ⟨ss, L', C', hr, hL', hC', hok, hp⟩ :=
        ih sl sc hsl hsc (fun x hx => h x (by simp [hx]))
      refine ⟨vlqEncList [a, b, sl - L, sc - C] :: ss, L', C', ?_, hL', hC', ?_, ?_⟩
      · rw [renderLineEntries_cons, renderEntry_len4 L C a b sl sc ha hb hdl hdc]
        simp only []
        rw [hr]
      · intro s hs
        rcases List.mem_cons.mp hs with rfl | hs'
        · refine ⟨vlqEncList_cons_ne_nil _ _, ?_⟩
          intro c hc
          obtain ⟨v, _, hcv⟩ := mem_vlqEncList _ c hc
          exact vlqEncChars_not_sep v c hcv
        · exact hok s hs'
      · rw [parseLineEntries_cons, parseEntry_enc4 L C a b sl sc ha hb hdl hdc]
        simp only []
        rw [hp]

/-- Render/parse round trip for a list of lines: rendering succeeds, produces
one `;`-free part per line, and parsing the parts recovers the lines with the
same final accumulators. -/
theorem renderParse_lines (lines : SourceMapLines) : ∀ L C : Int,
    L.natAbs ≤ 2 ^ 28 → C.natAbs ≤ 2 ^ 28 →
    (∀ l ∈ lines, ∀ e ∈ l, (e.length = 1 ∨ e.length = 4) ∧ ∀ v ∈ e, v.natAbs ≤ 2 ^ 28) →
    ∃ rendered L' C',
      renderAllLines L C lines = some (rendered, L', C') ∧
      rendered.length = lines.length ∧
      (∀ r ∈ rendered, ∀ c ∈ r, c ≠ ';') ∧
      parseMappingLines L C rendered = .ok (lines, L', C') := by
  induction lines with
  | nil =>
    intro L C _ _ _
    exact ⟨[], L, C, rfl, rfl, by simp, rfl⟩
  | cons line ls ih =>
    intro L C hL hC h
    obtain ⟨ss, L1, C1, hr, hL1, hC1, hss, hp⟩ :=
      renderParse_line line L C hL hC (h line (by simp))
    obtain ⟨rs, L', C', hr2, hlen, hsep, hp2⟩ :=
      ih L1 C1 hL1 hC1 (fun l hl => h l (by simp [hl]))
    have hstep : (if (joinWithChar ',' ss).length = 0 then Except.ok ([], L, C)
        else parseLineEntries L C (splitOnChar ',' (joinWithChar ',' ss))) =
        .ok (line, L1, C1) := by
      by_cases hempty : ss = []
      · subst hempty
        rw [show joinWithChar ',' ([] : List (List Char)) = [] from rfl,
          if_pos (show ([] : List Char).length = 0 from rfl)]
        have h0 : parseLineEntries L C ([] : List (List Char)) = Except.ok ([], L, C) := rfl
        rw [← h0]
        exact hp
      · obtain ⟨s, ss', rfl⟩ : ∃ s ss', ss = s :: ss' := by
          rcases ss with _ | ⟨s, ss'⟩
          · exact absurd rfl hempty
          · exact ⟨s, ss', rfl⟩
        have hjne : joinWithChar ',' (s :: ss') ≠ [] :=
          joinWithChar_ne_nil ',' s (hss s (by simp)).1 ss'
        rw [if_neg (fun hc => hjne (List.length_eq_zero.mp hc))]
        rw [splitOnChar_join ',' (s :: ss') (by simp)
          (fun p hp' c hc => ((hss p hp').2 c hc).1)]
        exact hp
    refine ⟨joinWithChar ',' ss :: rs, L', C', ?_, by simp [hlen], ?_, ?_⟩
    · rw [renderAllLines_cons, hr]
      simp only []
      rw [hr2]
    · intro r hrr c hc
      rcases List.mem_cons.mp hrr with rfl | hr'
      · rcases mem_joinWithChar ',' ss c hc with rfl | ⟨p, hp', hcp⟩
        · decide
        · exact ((hss p hp').2 c hcp).2
      · exact hsep r hr' c hc
    · rw [parseMappingLines_cons, hstep]
      simp only []
      rw [hp2]

/-- Counterexample to claim C3 as stated: arity-5 segments do not survive the
round trip.  `renderMappings` re-encodes only entries of length exactly 4, so
an arity-5 entry is rendered as its column delta alone, and the second parse
yields an arity-1 segment. -/
theorem render_parse_round_trip_cex :
    parseMappings "AAAAA".toList = .ok [[[0, 0, 0, 0, 0]]] ∧
    renderMappings [[[0, 0, 0, 0, 0]]] = some "A".toList ∧
    parseMappings "A".toList = .ok [[[0]]] ∧
    ([[[0]]] : SourceMapLines) ≠ [[[0, 0, 0, 0, 0]]] :=
  ⟨by decide, by decide, by decide, by decide⟩

/-- Claim C3 (amended): for a map document whose parse succeeds and yields a
non-empty line list containing only arity-1 and arity-4 segments with all
fields of magnitude at most `2^28`, rendering the resolved lines and parsing
the rendered string again reproduces the same resolved lines.  (Arity-5
segments are excluded: `renderMappings` drops them to arity 1.) -/
theorem render_parse_round_trip (m0 : List Char) (lines : SourceMapLines)
    (_hparse : parseMappings m0 = .ok lines) (hne : lines ≠ [])
    (hgood : ∀ l ∈ lines, ∀ e ∈ l,
      (e.length = 1 ∨ e.length = 4) ∧ ∀ v ∈ e, v.natAbs ≤ 2 ^ 28) :
    ∃ m, renderMappings lines = some m ∧ parseMappings m = .ok lines := by
  obtain ⟨rendered, L', C', hr, hlen, hsep, hp⟩ :=
    renderParse_lines lines 0 0 (by simp) (by simp) hgood
  have hrne : rendered ≠ [] := by
    intro hc
    rw [hc] at hlen
    exact hne (List.length_eq_zero.mp hlen.symm)
  refine ⟨joinWithChar ';' rendered, ?_, ?_⟩
  · unfold renderMappings
    rw [hr]
  · unfold parseMappings
    rw [splitOnChar_join ';' rendered hrne hsep]
    rw [hp]

/-- Witness for `render_parse_round_trip` on the document `"AAAA,CAAC"`. -/
theorem render_parse_round_trip_witness :
    parseMappings "AAAA,CAAC".toList = .ok [[[0, 0, 0, 0], [1, 0, 0, 1]]] ∧
    ([[[0, 0, 0, 0], [1, 0, 0, 1]]] : SourceMapLines) ≠ [] ∧
    ∃ m, renderMappings [[[0, 0, 0, 0], [1, 0, 0, 1]]] = some m ∧
      parseMappings m = .ok [[[0, 0, 0, 0], [1, 0, 0, 1]]] :=
  ⟨by decide, by decide,
    render_parse_round_trip "AAAA,CAAC".toList [[[0, 0, 0, 0], [1, 0, 0, 1]]]
      (by decide) (by decide) (by decide)⟩
